import Mathlib

/-!
Verification development for the `mime` repository (media-type parsing,
interning, accessors and equality).

Strings are modelled as lists of byte values (`List Nat`), matching the
byte-oriented scanners in the source (`s.bytes().enumerate()`).  Each Rust
loop becomes a recursive function carrying the current byte index; guards
and arm order are translated literally.  The repository contains code from
several revisions: `mime-parse/src/lib.rs` (namespace `MimeParse`, the main
parser with `CanRange`), `mime-parse/src/rfc7231.rs` (namespace `Rfc7231`),
`mime-parse/src/constants.rs` (namespace `constants`, shared by both), and
`src/cmp.rs` with `src/value.rs` (namespace `Cmp`).
-/

set_option linter.unusedVariables false

/-- Byte string of an ASCII string literal (UTF-8 bytes; all literals used
here are ASCII, so the code points are the bytes). -/
def bytes (s : String) : List Nat := s.data.map Char.toNat

/-- ASCII lower-casing of one byte (`u8::to_ascii_lowercase`). -/
def lowerByte (c : Nat) : Nat := if 65 ≤ c ∧ c ≤ 90 then c + 32 else c

/-- ASCII lower-casing of a byte string (`str::to_ascii_lowercase` /
`make_ascii_lowercase` over the whole string). -/
def lowerBytes (s : List Nat) : List Nat := s.map lowerByte

/-- `str::eq_ignore_ascii_case`. -/
def ciEq (a b : List Nat) : Bool := lowerBytes a == lowerBytes b

/-- The half-open byte range `&s[a..b]` (well-formed uses have `a ≤ b ≤ len`). -/
def sliceB (s : List Nat) (a b : Nat) : List Nat := (s.take b).drop a

/-- `TOKEN_MAP` of `mime-parse/src/lib.rs` and `rfc7231.rs` (the two tables
are identical): RFC 7231 `tchar` without `*`. -/
def is_token (c : Nat) : Bool :=
  (48 ≤ c && c ≤ 57) || (65 ≤ c && c ≤ 90) || (97 ≤ c && c ≤ 122) ||
  c == 33 || c == 35 || c == 36 || c == 37 || c == 38 || c == 39 ||
  c == 43 || c == 45 || c == 46 || c == 94 || c == 95 || c == 96 ||
  c == 124 || c == 126

/-- `is_restricted_quoted_char`: HTAB or any visible/high byte. -/
def is_restricted_quoted_char (c : Nat) : Bool :=
  c == 9 || (31 < c && c != 127)

/-- `Source`: backing storage of a parsed `Mime`. -/
inductive Source where
  | Atom (id : Nat) (str : List Nat)
  | Dynamic (str : List Nat)
deriving DecidableEq, Repr

/-- The backing string (`Source::as_ref`). -/
def Source.str : Source → List Nat
  | .Atom _ s => s
  | .Dynamic s => s

/-- An indexed `(name, value)` pair of byte ranges into the source. -/
abbrev IndexedPair := (Nat × Nat) × (Nat × Nat)

/-- `ParamSource`: the compact parameter-table encoding. -/
inductive ParamSource where
  | None
  | Utf8 (semi : Nat)
  | One (semi : Nat) (a : IndexedPair)
  | Two (semi : Nat) (a b : IndexedPair)
  | Custom (semi : Nat) (ps : List IndexedPair)
deriving DecidableEq, Repr

/-- `InternParams`: how `Atoms::intern` is told about the parameter region. -/
inductive InternParams where
  | Utf8 (semi : Nat)
  | None

/-- `ParseError` (the `mime-parse/src/lib.rs` version; `rfc7231.rs` only
wraps the byte in a newtype). -/
inductive ParseError where
  | MissingSlash
  | MissingEqual
  | MissingQuote
  | InvalidToken (pos : Nat) (byte : Nat)
  | InvalidRange
  | TooLong
deriving DecidableEq, Repr

/-- The parsed value: backing string, `/` offset, optional `+` offset and
the parameter table. -/
structure Mime where
  source : Source
  slash : Nat
  plus : Option Nat
  params : ParamSource
deriving DecidableEq, Repr

namespace Mime

/-- `Mime::as_ref` / the string printed by `fmt::Display`. -/
def sourceStr (m : Mime) : List Nat := m.source.str

/-- What `Mime`'s `Display` implementation writes: the backing string. -/
def displayStr (m : Mime) : List Nat := m.sourceStr

/-- `Mime::semicolon`. -/
def semicolon (m : Mime) : Option Nat :=
  match m.params with
  | .Utf8 i => some i
  | .One i _ => some i
  | .Two i _ _ => some i
  | .Custom i _ => some i
  | .None => none

/-- `Mime::semicolon_or_end`. -/
def semicolonOrEnd (m : Mime) : Nat :=
  match m.semicolon with
  | some i => i
  | none => m.sourceStr.length

/-- `Mime::has_params`. -/
def has_params (m : Mime) : Bool := m.semicolon.isSome

/-- `Mime::atom` (0 for `Dynamic`). -/
def atom (m : Mime) : Nat :=
  match m.source with
  | .Atom a _ => a
  | .Dynamic _ => 0

/-- `Mime::type_`. -/
def type_ (m : Mime) : List Nat := sliceB m.sourceStr 0 m.slash

/-- `Mime::subtype`. -/
def subtype (m : Mime) : List Nat :=
  sliceB m.sourceStr (m.slash + 1) m.semicolonOrEnd

/-- `Mime::suffix`. -/
def suffix (m : Mime) : Option (List Nat) :=
  m.plus.map (fun idx => sliceB m.sourceStr (idx + 1) m.semicolonOrEnd)

/-- The `(name, value)` pairs produced by the `Params` iterator, in order:
the `Utf8` shape synthesizes the literal pair without touching the source. -/
def paramsList (m : Mime) : List (List Nat × List Nat) :=
  match m.params with
  | .None => []
  | .Utf8 _ => [(bytes "charset", bytes "utf-8")]
  | .One _ a => [(sliceB m.sourceStr a.1.1 a.1.2, sliceB m.sourceStr a.2.1 a.2.2)]
  | .Two _ a b =>
      [(sliceB m.sourceStr a.1.1 a.1.2, sliceB m.sourceStr a.2.1 a.2.2),
       (sliceB m.sourceStr b.1.1 b.1.2, sliceB m.sourceStr b.2.1 b.2.2)]
  | .Custom _ ps =>
      ps.map (fun p => (sliceB m.sourceStr p.1.1 p.1.2, sliceB m.sourceStr p.2.1 p.2.2))

end Mime

namespace constants

/-- `text/plain` (atom ordinal 1; `__Atoms::__Dynamic` is 0). -/
def TEXT_PLAIN : Mime := ⟨.Atom 1 (bytes "text/plain"), 4, none, .None⟩
def TEXT_PLAIN_UTF_8 : Mime := ⟨.Atom 2 (bytes "text/plain; charset=utf-8"), 4, none, .Utf8 10⟩
def TEXT_HTML : Mime := ⟨.Atom 3 (bytes "text/html"), 4, none, .None⟩
def TEXT_HTML_UTF_8 : Mime := ⟨.Atom 4 (bytes "text/html; charset=utf-8"), 4, none, .Utf8 9⟩
def TEXT_CSS : Mime := ⟨.Atom 5 (bytes "text/css"), 4, none, .None⟩
def TEXT_CSS_UTF_8 : Mime := ⟨.Atom 6 (bytes "text/css; charset=utf-8"), 4, none, .Utf8 8⟩
def TEXT_JAVASCRIPT : Mime := ⟨.Atom 7 (bytes "text/javascript"), 4, none, .None⟩
def TEXT_XML : Mime := ⟨.Atom 8 (bytes "text/xml"), 4, none, .None⟩
def TEXT_EVENT_STREAM : Mime := ⟨.Atom 9 (bytes "text/event-stream"), 4, none, .None⟩
def TEXT_CSV : Mime := ⟨.Atom 10 (bytes "text/csv"), 4, none, .None⟩
def TEXT_CSV_UTF_8 : Mime := ⟨.Atom 11 (bytes "text/csv; charset=utf-8"), 4, none, .Utf8 8⟩
def TEXT_TAB_SEPARATED_VALUES : Mime := ⟨.Atom 12 (bytes "text/tab-separated-values"), 4, none, .None⟩
def TEXT_TAB_SEPARATED_VALUES_UTF_8 : Mime := ⟨.Atom 13 (bytes "text/tab-separated-values; charset=utf-8"), 4, none, .Utf8 25⟩
def TEXT_VCARD : Mime := ⟨.Atom 14 (bytes "text/vcard"), 4, none, .None⟩
def IMAGE_JPEG : Mime := ⟨.Atom 15 (bytes "image/jpeg"), 5, none, .None⟩
def IMAGE_GIF : Mime := ⟨.Atom 16 (bytes "image/gif"), 5, none, .None⟩
def IMAGE_PNG : Mime := ⟨.Atom 17 (bytes "image/png"), 5, none, .None⟩
def IMAGE_BMP : Mime := ⟨.Atom 18 (bytes "image/bmp"), 5, none, .None⟩
def IMAGE_SVG : Mime := ⟨.Atom 19 (bytes "image/svg+xml"), 5, some 9, .None⟩
def FONT_WOFF : Mime := ⟨.Atom 20 (bytes "font/woff"), 4, none, .None⟩
def FONT_WOFF2 : Mime := ⟨.Atom 21 (bytes "font/woff2"), 4, none, .None⟩
def APPLICATION_JSON : Mime := ⟨.Atom 22 (bytes "application/json"), 11, none, .None⟩
def APPLICATION_JAVASCRIPT : Mime := ⟨.Atom 23 (bytes "application/javascript"), 11, none, .None⟩
def APPLICATION_JAVASCRIPT_UTF_8 : Mime := ⟨.Atom 24 (bytes "application/javascript; charset=utf-8"), 11, none, .Utf8 22⟩
def APPLICATION_WWW_FORM_URLENCODED : Mime := ⟨.Atom 25 (bytes "application/x-www-form-urlencoded"), 11, none, .None⟩
def APPLICATION_OCTET_STREAM : Mime := ⟨.Atom 26 (bytes "application/octet-stream"), 11, none, .None⟩
def APPLICATION_MSGPACK : Mime := ⟨.Atom 27 (bytes "application/msgpack"), 11, none, .None⟩
def APPLICATION_PDF : Mime := ⟨.Atom 28 (bytes "application/pdf"), 11, none, .None⟩
def APPLICATION_DNS : Mime := ⟨.Atom 29 (bytes "application/dns-message"), 11, none, .None⟩
def STAR_STAR : Mime := ⟨.Atom 30 (bytes "*/*"), 1, none, .None⟩
def TEXT_STAR : Mime := ⟨.Atom 31 (bytes "text/*"), 4, none, .None⟩
def IMAGE_STAR : Mime := ⟨.Atom 32 (bytes "image/*"), 5, none, .None⟩
def VIDEO_STAR : Mime := ⟨.Atom 33 (bytes "video/*"), 5, none, .None⟩
def AUDIO_STAR : Mime := ⟨.Atom 34 (bytes "audio/*"), 5, none, .None⟩

/-- `Atoms::dynamic`: the lower-cased owned fallback. -/
def dynamic (s : List Nat) : Source := .Dynamic (lowerBytes s)

/-- `Atoms::intern_charset_utf8`: decision tree over `top = &s[..slash]`
and `sub = &s[slash+1..semicolon]`, all comparisons exact (the table
entries are lower-case). -/
def intern_charset_utf8 (s : List Nat) (slash semi : Nat) : Source :=
  if sliceB s 0 slash = bytes "text" then
    if sliceB s (slash + 1) semi = bytes "plain" then TEXT_PLAIN_UTF_8.source
    else if sliceB s (slash + 1) semi = bytes "html" then TEXT_HTML_UTF_8.source
    else if sliceB s (slash + 1) semi = bytes "css" then TEXT_CSS_UTF_8.source
    else if sliceB s (slash + 1) semi = bytes "csv" then TEXT_CSV_UTF_8.source
    else if sliceB s (slash + 1) semi = bytes "tab-separated-values" then TEXT_TAB_SEPARATED_VALUES_UTF_8.source
    else dynamic s
  else if sliceB s 0 slash = bytes "application" then
    if sliceB s (slash + 1) semi = bytes "javascript" then APPLICATION_JAVASCRIPT_UTF_8.source
    else dynamic s
  else dynamic s

/-- The `text/*` arm of the `intern_no_params` match (subtype length,
then content). -/
def intern_text (s : List Nat) (slash : Nat) : Source :=
  if (sliceB s (slash + 1) s.length).length = 1 then
    if (sliceB s (slash + 1) s.length).head? = some 42 then TEXT_STAR.source else dynamic s
  else if (sliceB s (slash + 1) s.length).length = 3 then
    if sliceB s (slash + 1) s.length = bytes "css" then TEXT_CSS.source
    else if sliceB s (slash + 1) s.length = bytes "xml" then TEXT_XML.source
    else if sliceB s (slash + 1) s.length = bytes "csv" then TEXT_CSV.source
    else dynamic s
  else if (sliceB s (slash + 1) s.length).length = 4 then
    if sliceB s (slash + 1) s.length = bytes "html" then TEXT_HTML.source else dynamic s
  else if (sliceB s (slash + 1) s.length).length = 5 then
    if sliceB s (slash + 1) s.length = bytes "plain" then TEXT_PLAIN.source
    else if sliceB s (slash + 1) s.length = bytes "vcard" then TEXT_VCARD.source
    else dynamic s
  else if (sliceB s (slash + 1) s.length).length = 10 then
    if sliceB s (slash + 1) s.length = bytes "javascript" then TEXT_JAVASCRIPT.source else dynamic s
  else if (sliceB s (slash + 1) s.length).length = 12 then
    if sliceB s (slash + 1) s.length = bytes "event-stream" then TEXT_EVENT_STREAM.source else dynamic s
  else if (sliceB s (slash + 1) s.length).length = 20 then
    if sliceB s (slash + 1) s.length = bytes "tab-separated-values" then TEXT_TAB_SEPARATED_VALUES.source else dynamic s
  else dynamic s

/-- The `font/*` arm. -/
def intern_font (s : List Nat) (slash : Nat) : Source :=
  if (sliceB s (slash + 1) s.length).length = 4 then
    if sliceB s (slash + 1) s.length = bytes "woff" then FONT_WOFF.source else dynamic s
  else if (sliceB s (slash + 1) s.length).length = 5 then
    if sliceB s (slash + 1) s.length = bytes "woff2" then FONT_WOFF2.source else dynamic s
  else dynamic s

/-- The `image/*` arm. -/
def intern_image (s : List Nat) (slash : Nat) : Source :=
  if (sliceB s (slash + 1) s.length).length = 1 then
    if (sliceB s (slash + 1) s.length).head? = some 42 then IMAGE_STAR.source else dynamic s
  else if (sliceB s (slash + 1) s.length).length = 3 then
    if sliceB s (slash + 1) s.length = bytes "png" then IMAGE_PNG.source
    else if sliceB s (slash + 1) s.length = bytes "gif" then IMAGE_GIF.source
    else if sliceB s (slash + 1) s.length = bytes "bmp" then IMAGE_BMP.source
    else dynamic s
  else if (sliceB s (slash + 1) s.length).length = 4 then
    if sliceB s (slash + 1) s.length = bytes "jpeg" then IMAGE_JPEG.source else dynamic s
  else if (sliceB s (slash + 1) s.length).length = 7 then
    if sliceB s (slash + 1) s.length = bytes "svg+xml" then IMAGE_SVG.source else dynamic s
  else dynamic s

/-- The `video/*` arm. -/
def intern_video (s : List Nat) (slash : Nat) : Source :=
  if (sliceB s (slash + 1) s.length).length = 1 then
    if (sliceB s (slash + 1) s.length).head? = some 42 then VIDEO_STAR.source else dynamic s
  else dynamic s

/-- The `audio/*` arm. -/
def intern_audio (s : List Nat) (slash : Nat) : Source :=
  if (sliceB s (slash + 1) s.length).length = 1 then
    if (sliceB s (slash + 1) s.length).head? = some 42 then AUDIO_STAR.source else dynamic s
  else dynamic s

/-- The `application/*` arm. -/
def intern_application (s : List Nat) (slash : Nat) : Source :=
  if (sliceB s (slash + 1) s.length).length = 3 then
    if sliceB s (slash + 1) s.length = bytes "pdf" then APPLICATION_PDF.source else dynamic s
  else if (sliceB s (slash + 1) s.length).length = 4 then
    if sliceB s (slash + 1) s.length = bytes "json" then APPLICATION_JSON.source else dynamic s
  else if (sliceB s (slash + 1) s.length).length = 7 then
    if sliceB s (slash + 1) s.length = bytes "msgpack" then APPLICATION_MSGPACK.source else dynamic s
  else if (sliceB s (slash + 1) s.length).length = 10 then
    if sliceB s (slash + 1) s.length = bytes "javascript" then APPLICATION_JAVASCRIPT.source else dynamic s
  else if (sliceB s (slash + 1) s.length).length = 11 then
    if sliceB s (slash + 1) s.length = bytes "dns-message" then APPLICATION_DNS.source else dynamic s
  else if (sliceB s (slash + 1) s.length).length = 12 then
    if sliceB s (slash + 1) s.length = bytes "octet-stream" then APPLICATION_OCTET_STREAM.source else dynamic s
  else if (sliceB s (slash + 1) s.length).length = 21 then
    if sliceB s (slash + 1) s.length = bytes "x-www-form-urlencoded" then APPLICATION_WWW_FORM_URLENCODED.source else dynamic s
  else dynamic s

/-- `Atoms::intern_no_params`: dispatch on the `/` position, then the
top-level name, then (in the per-top helpers above, mirroring the nested
`match` arms) the subtype length and content.  The `usize` match arms
become equality tests, catch-all arms fall through to `dynamic`. -/
def intern_no_params (s : List Nat) (slash : Nat) : Source :=
  if slash = 4 then
    if sliceB s 0 slash = bytes "text" then intern_text s slash
    else if sliceB s 0 slash = bytes "font" then intern_font s slash
    else dynamic s
  else if slash = 5 then
    if sliceB s 0 slash = bytes "image" then intern_image s slash
    else if sliceB s 0 slash = bytes "video" then intern_video s slash
    else if sliceB s 0 slash = bytes "audio" then intern_audio s slash
    else dynamic s
  else if slash = 11 then
    if sliceB s 0 slash = bytes "application" then intern_application s slash
    else dynamic s
  else dynamic s

/-- `Atoms::intern`. -/
def intern (s : List Nat) (slash : Nat) (params : InternParams) : Source :=
  match params with
  | .Utf8 semi => intern_charset_utf8 s slash semi
  | .None => intern_no_params s slash

end constants

/-- Indexed map over a byte list, starting at index `k` (helper used to
embed in-place subrange mutation). -/
def mapIdxFrom (f : Nat → Nat → Nat) : Nat → List Nat → List Nat
  | _, [] => []
  | k, c :: r => f k c :: mapIdxFrom f (k + 1) r

/-- Lower-case the bytes whose index satisfies `P`, leave the rest. -/
def lowerIf (P : Nat → Bool) (s : List Nat) : List Nat :=
  mapIdxFrom (fun j c => if P j then lowerByte c else c) 0 s

/-- `owned[a..b].make_ascii_lowercase()`: lower-case the bytes in `[a, b)`. -/
def lowerRange (s : List Nat) (a b : Nat) : List Nat :=
  lowerIf (fun j => decide (a ≤ j) && decide (j < b)) s

/-- `lower_ascii_with_params` (`mime-parse/src/lib.rs:498`): lower-case the
essence prefix, each parameter name, and the value of any parameter whose
(just lower-cased) name is `charset`. -/
def lower_ascii_with_params (s : List Nat) (semi : Nat) (ps : List IndexedPair) : List Nat :=
  ps.foldl
    (fun owned p =>
      let owned1 := lowerRange owned p.1.1 p.1.2
      if sliceB owned1 p.1.1 p.1.2 = bytes "charset" then lowerRange owned1 p.2.1 p.2.2
      else owned1)
    (lowerRange s 0 semi)

namespace MimeParse

/-- The toplevel loop of `parse` (`lib.rs:277`): scan token bytes until a
`/` at index `> 0`; returns the slash index and the remaining bytes.  The
list argument is the un-consumed tail of the input, `i` the index of its
first byte. -/
def toplevel : List Nat → Nat → Except ParseError (Nat × List Nat)
  | [], _ => .error .MissingSlash
  | c :: rest, i =>
    if is_token c then toplevel rest (i + 1)
    else if c = 47 ∧ 0 < i then .ok (i, rest)
    else .error (.InvalidToken i c)

/-- The byte right after a wildcard subtype `*` (`lib.rs:308`): it must be
either end of input (parameterless result) or a `;` opening the parameter
region. -/
def starNext : List Nat → Nat → Option Nat →
    Except ParseError (Option Nat ⊕ (Option Nat × Nat × List Nat))
  | [], _, plus => .ok (.inl plus)
  | c2 :: rest2, i, plus =>
    if c2 = 59 then .ok (.inr (plus, i + 1, rest2))
    else .error (.InvalidToken (i + 1) c2)

/-- The sublevel loop of `parse` (`lib.rs:295`): record each `+` strictly
after the subtype start, break at `;` (returning the parameter-region
start and the bytes after the `;`), handle a leading `*` when ranges are
allowed, otherwise accept tokens until end of input. -/
def sublevel (can_range : Bool) : List Nat → Nat → Nat → Option Nat →
    Except ParseError (Option Nat ⊕ (Option Nat × Nat × List Nat))
  | [], _, _, plus => .ok (.inl plus)
  | c :: rest, i, start, plus =>
    if c = 43 ∧ start < i then sublevel can_range rest (i + 1) start (some i)
    else if c = 59 ∧ start < i then .ok (.inr (plus, i, rest))
    else if c = 42 ∧ i = start ∧ can_range = true then starNext rest i plus
    else if is_token c then sublevel can_range rest (i + 1) start plus
    else .error (.InvalidToken i c)

/-- The `'name` loop of `params_from_str` (`lib.rs:369`): skip leading
spaces while `i == start`, scan token bytes, break at `=` strictly after
the start.  Returns the name range, the new `start` (which is also the
next byte index) and the remaining bytes. -/
def nameLoop : List Nat → Nat → Nat → Except ParseError ((Nat × Nat) × Nat × List Nat)
  | [], _, _ => .error .MissingEqual
  | c :: rest, i, start =>
    if c = 32 ∧ i = start then nameLoop rest (i + 1) (i + 1)
    else if is_token c then nameLoop rest (i + 1) start
    else if c = 61 ∧ start < i then .ok ((start, i), i + 1, rest)
    else .error (.InvalidToken i c)

/-- The quoted-string part of the `'value` loop (`lib.rs:392`), entered
after the opening quote: a `"` strictly after the opening quote closes the
value (whose range includes both quotes), `\` starts a quoted-pair whose
escaped byte must be a restricted quoted char.  Returns the value range
and the remaining bytes with their first index. -/
def valueQuoted : List Nat → Nat → Nat → Except ParseError ((Nat × Nat) × Nat × List Nat)
  | [], _, _ => .error .MissingQuote
  | c :: rest, i, start =>
    if c = 34 ∧ start < i then .ok ((start, i + 1), i + 1, rest)
    else if c = 92 then
      match rest with
      | [] => .error .MissingQuote
      | c2 :: rest2 =>
        if is_restricted_quoted_char c2 then valueQuoted rest2 (i + 2) start
        else .error (.InvalidToken (i + 1) c2)
    else if is_restricted_quoted_char c then valueQuoted rest (i + 1) start
    else .error (.InvalidToken i c)

/-- The `'ws` loop after a quoted value (`lib.rs:446`): skip spaces, stop
at `;` (next parameter starts after it) or end of input.  Returns the new
`start` and the remaining bytes with their first index. -/
def wsLoop (slen : Nat) : List Nat → Nat → Except ParseError (Nat × Nat × List Nat)
  | [], i => .ok (slen, i, [])
  | c :: rest, i =>
    if c = 59 then .ok (i + 1, i + 1, rest)
    else if c = 32 then wsLoop slen rest (i + 1)
    else .error (.InvalidToken i c)

/-- The unquoted entry of the `'value` loop (`lib.rs:419`): a quote at the
value start switches to the quoted scanner (followed by the `'ws` loop),
token bytes extend the value, `;` strictly after the start or end of input
terminate it.  Returns the value range, the new `start` and the remaining
bytes with their first index. -/
def valueScan (slen : Nat) : List Nat → Nat → Nat →
    Except ParseError ((Nat × Nat) × Nat × Nat × List Nat)
  | [], i, start => .ok ((start, slen), slen, i, [])
  | c :: rest, i, start =>
    if c = 34 ∧ i = start then
      match valueQuoted rest (i + 1) i with
      | .error e => .error e
      | .ok (v, i1, rest1) =>
        match wsLoop slen rest1 i1 with
        | .error e => .error e
        | .ok (start2, i2, rest2) => .ok (v, start2, i2, rest2)
    else if is_token c then valueScan slen rest (i + 1) start
    else if c = 59 ∧ start < i then .ok ((start, i), i + 1, i + 1, rest)
    else .error (.InvalidToken i c)

/-- The shape-promotion step at the end of each `'params` iteration
(`lib.rs:469`): `None` promotes to `Utf8` exactly when the name starts two
bytes after the semicolon and name/value match `charset`/`utf-8`
case-insensitively, otherwise to `One`; `Utf8` re-materializes the
implicit charset pair; `Two` overflows into `Custom`. -/
def pushParam (s : List Nat) (semi : Nat) (params : ParamSource)
    (name value : Nat × Nat) : ParamSource :=
  match params with
  | .Utf8 i => .Two semi ((i + 2, i + 9), (i + 10, i + 15)) (name, value)
  | .One sc a => .Two sc a (name, value)
  | .Two sc a b => .Custom sc [a, b, (name, value)]
  | .Custom sc v => .Custom sc (v ++ [(name, value)])
  | .None =>
    if semi + 2 = name.1 ∧ ciEq (sliceB s name.1 name.2) (bytes "charset") = true ∧
        ciEq (sliceB s value.1 value.2) (bytes "utf-8") = true then
      .Utf8 semi
    else .One semi (name, value)

/-- The `'params` loop (`lib.rs:366`): while `start < s.len()`, scan one
`name=value` parameter and fold it into the shape.  `fuel` bounds the
number of iterations (each iteration consumes at least one byte, so any
`fuel ≥ rest.length` behaves like the unbounded loop; the exhaustion
branch is unreachable from `parse`). -/
def paramsLoop (s : List Nat) (semi : Nat) :
    Nat → List Nat → Nat → Nat → ParamSource → Except ParseError ParamSource
  | fuel, rest, i, start, params =>
    if start < s.length then
      match fuel with
      | 0 => .error .TooLong
      | fuel' + 1 =>
        match nameLoop rest i start with
        | .error e => .error e
        | .ok (name, start1, rest1) =>
          match valueScan s.length rest1 start1 start1 with
          | .error e => .error e
          | .ok (value, start2, i2, rest2) =>
            paramsLoop s semi fuel' rest2 i2 start2 (pushParam s semi params name value)
    else .ok params

/-- `params_from_str` (`lib.rs:362`): `semicolon` is the `;` position,
scanning starts one byte later. -/
def params_from_str (s : List Nat) (rest : List Nat) (start : Nat) :
    Except ParseError ParamSource :=
  paramsLoop s start s.length rest (start + 1) (start + 1) .None

/-- The final source selection of `parse` (`lib.rs:345`). -/
def mkSource (s : List Nat) (slash : Nat) : ParamSource → Source
  | .None => constants.intern s slash .None
  | .Utf8 semi => constants.intern s slash (.Utf8 semi)
  | .One semi a => .Dynamic (lower_ascii_with_params s semi [a])
  | .Two semi a b => .Dynamic (lower_ascii_with_params s semi [a, b])
  | .Custom semi ps => .Dynamic (lower_ascii_with_params s semi ps)

/-- `parse` (`mime-parse/src/lib.rs:261`): length guard, the `*/*` special
case gated by `CanRange`, then toplevel, sublevel and parameter scanning.
`can_range = true` stands for `CanRange::Yes`. -/
def parse (s : List Nat) (can_range : Bool) : Except ParseError Mime :=
  if s.length > 65535 then .error .TooLong
  else if s = bytes "*/*" then
    if can_range then .ok constants.STAR_STAR else .error .InvalidRange
  else
    match toplevel s 0 with
    | .error e => .error e
    | .ok (slash, rest) =>
      match sublevel can_range rest (slash + 1) (slash + 1) none with
      | .error e => .error e
      | .ok (.inl plus) =>
        .ok ⟨constants.intern s slash .None, slash, plus, .None⟩
      | .ok (.inr (plus, start, rest2)) =>
        match params_from_str s rest2 start with
        | .error e => .error e
        | .ok params => .ok ⟨mkSource s slash params, slash, plus, params⟩

/-- `FastEqRes` (`lib.rs:633`). -/
inductive FastEqRes where
  | Equals
  | NotEquals
  | Undetermined

/-- `Params::fast_eq` (`lib.rs:649`), expressed on the stored shapes (the
`ParamsInner` constructors correspond one-to-one to `ParamSource`). -/
def fast_eq : ParamSource → ParamSource → FastEqRes
  | .None, .None => .Equals
  | .Utf8 _, .Utf8 _ => .Equals
  | .None, _ => .NotEquals
  | _, .None => .NotEquals
  | _, _ => .Undetermined

/-- `HashMap` built by `collect()` on the params iterator: later pairs with
an equal key overwrite earlier ones. -/
def collectMap (ps : List (List Nat × List Nat)) : List (List Nat × List Nat) :=
  ps.foldl
    (fun m kv =>
      if m.any (fun e => e.1 = kv.1) then m.map (fun e => if e.1 = kv.1 then kv else e)
      else m ++ [kv])
    []

/-- `HashMap` equality: equal size and every entry of the left map present
with an equal value in the right one. -/
def mapEq (a b : List (List Nat × List Nat)) : Bool :=
  a.length == b.length && a.all (fun kv => (b.lookup kv.1) == some kv.2)

/-- `Mime::eq_of_params` (`lib.rs:162`).  NOTE: the source collects
`self.params()` twice (lines 173-174), so the `Undetermined` branch
compares the left-hand side with itself; this bug is preserved. -/
def eq_of_params (a b : Mime) : Bool :=
  match fast_eq a.params b.params with
  | .Equals => true
  | .NotEquals => false
  | .Undetermined =>
    let my_params := collectMap a.paramsList
    let other_params := collectMap a.paramsList
    mapEq my_params other_params

/-- `Mime::eq_type_subtype` (`lib.rs:155`): byte equality of the two
essence prefixes. -/
def eq_type_subtype (a b : Mime) : Bool :=
  sliceB a.sourceStr 0 a.semicolonOrEnd == sliceB b.sourceStr 0 b.semicolonOrEnd

/-- `impl PartialEq for Mime` (`lib.rs:209`): atom fast path when both
identities are nonzero, else the structural comparison. -/
def mimeEq (a b : Mime) : Bool :=
  if a.atom = 0 ∨ b.atom = 0 then eq_type_subtype a b && eq_of_params a b
  else a.atom == b.atom

/-- `Mime::eq_str` (`lib.rs:178`): the `Utf8` equal-length shortcut, the
re-parse path for parameterized mimes, and the case-insensitive direct
comparison for parameterless ones. -/
def eq_str (m : Mime) (s : List Nat) : Bool :=
  match m.params with
  | .Utf8 _ =>
    if m.sourceStr.length = s.length then ciEq m.sourceStr s
    else
      match parse s true with
      | .ok other => mimeEq m other
      | .error _ => false
  | _ =>
    if m.has_params then
      match parse s true with
      | .ok other => mimeEq m other
      | .error _ => false
    else ciEq m.sourceStr s

end MimeParse

namespace Rfc7231

/-- The toplevel loop of `rfc7231::parse` (`rfc7231.rs:72`): identical to
the `lib.rs` one. -/
def toplevel : List Nat → Nat → Except ParseError (Nat × List Nat)
  | [], _ => .error .MissingSlash
  | c :: rest, i =>
    if is_token c then toplevel rest (i + 1)
    else if c = 47 ∧ 0 < i then .ok (i, rest)
    else .error (.InvalidToken i c)

/-- The sublevel loop of `rfc7231::parse` (`rfc7231.rs:90`): like the
`lib.rs` one, but a space strictly after the subtype start also ends the
subtype and starts the parameter region. -/
def sublevel (can_range : Bool) : List Nat → Nat → Nat → Option Nat →
    Except ParseError (Option Nat ⊕ (Option Nat × Nat × List Nat))
  | [], _, _, plus => .ok (.inl plus)
  | c :: rest, i, start, plus =>
    if c = 43 ∧ start < i then sublevel can_range rest (i + 1) start (some i)
    else if c = 59 ∧ start < i then .ok (.inr (plus, i, rest))
    else if c = 32 ∧ start < i then .ok (.inr (plus, i, rest))
    else if c = 42 ∧ i = start ∧ can_range = true then MimeParse.starNext rest i plus
    else if is_token c then sublevel can_range rest (i + 1) start plus
    else .error (.InvalidToken i c)

/-- Result of one pass over the `'name` loop (`rfc7231.rs:176`): a leading
space (OWS) or an empty parameter (`;`) at the current start restarts the
outer `'params` loop with the next start position. -/
inductive NameRes where
  | restart (start : Nat) (i : Nat) (rest : List Nat)
  | found (name : Nat × Nat) (start1 : Nat) (rest1 : List Nat)

/-- The `'name` loop of `rfc7231::params_from_str`. -/
def nameLoop : List Nat → Nat → Nat → Except ParseError NameRes
  | [], _, _ => .error .MissingEqual
  | c :: rest, i, start =>
    if c = 32 ∧ i = start then .ok (.restart (i + 1) (i + 1) rest)
    else if c = 59 ∧ i = start then .ok (.restart (i + 1) (i + 1) rest)
    else if is_token c then nameLoop rest (i + 1) start
    else if c = 61 ∧ start < i then .ok (.found (start, i) (i + 1) rest)
    else .error (.InvalidToken i c)

/-- The unquoted `'value` loop of `rfc7231::params_from_str`
(`rfc7231.rs:236`): a space or a `;` strictly after the start terminates
the value; a quoted value reuses the same quoted scanner as `lib.rs`
(the two functions are textually identical) and sets the new start right
after the closing quote, with no whitespace loop. -/
def valueScan (slen : Nat) : List Nat → Nat → Nat →
    Except ParseError ((Nat × Nat) × Nat × List Nat)
  | [], i, start => .ok ((start, slen), slen, [])
  | c :: rest, i, start =>
    if c = 34 ∧ i = start then
      match MimeParse.valueQuoted rest (i + 1) i with
      | .error e => .error e
      | .ok (v, i1, rest1) => .ok (v, i1, rest1)
    else if is_token c then valueScan slen rest (i + 1) start
    else if (c = 32 ∨ c = 59) ∧ start < i then .ok ((start, i), i + 1, rest)
    else .error (.InvalidToken i c)

/-- The `'params` loop of `rfc7231::params_from_str` (`rfc7231.rs:173`);
the shape-promotion step is identical to the `lib.rs` one
(`MimeParse.pushParam`). -/
def paramsLoop (s : List Nat) (semi : Nat) :
    Nat → List Nat → Nat → Nat → ParamSource → Except ParseError ParamSource
  | fuel, rest, i, start, params =>
    if start < s.length then
      match fuel with
      | 0 => .error .TooLong
      | fuel' + 1 =>
        match nameLoop rest i start with
        | .error e => .error e
        | .ok (.restart start' i' rest') => paramsLoop s semi fuel' rest' i' start' params
        | .ok (.found name start1 rest1) =>
          match valueScan s.length rest1 start1 start1 with
          | .error e => .error e
          | .ok (value, start2, rest2) =>
            paramsLoop s semi fuel' rest2 start2 start2
              (MimeParse.pushParam s semi params name value)
    else .ok params

/-- `rfc7231::params_from_str` (`rfc7231.rs:169`). -/
def params_from_str (s : List Nat) (rest : List Nat) (start : Nat) :
    Except ParseError ParamSource :=
  paramsLoop s start (2 * s.length) rest (start + 1) (start + 1) .None

/-- The final source selection of `rfc7231::parse` (`rfc7231.rs:143`):
with an empty parameter list the `;`/space tail is chopped off before
interning. -/
def mkSource (s : List Nat) (slash start : Nat) : ParamSource → Source
  | .None => constants.intern (s.take start) slash .None
  | .Utf8 semi => constants.intern s slash (.Utf8 semi)
  | .One semi a => .Dynamic (lower_ascii_with_params s semi [a])
  | .Two semi a b => .Dynamic (lower_ascii_with_params s semi [a, b])
  | .Custom semi ps => .Dynamic (lower_ascii_with_params s semi ps)

/-- `rfc7231::parse` (`rfc7231.rs:54`); `can_range` is `Parser::can_range`. -/
def parse (can_range : Bool) (s : List Nat) : Except ParseError Mime :=
  if s.length > 65535 then .error .TooLong
  else if s = bytes "*/*" then
    if can_range then .ok constants.STAR_STAR else .error .InvalidRange
  else
    match toplevel s 0 with
    | .error e => .error e
    | .ok (slash, rest) =>
      match sublevel can_range rest (slash + 1) (slash + 1) none with
      | .error e => .error e
      | .ok (.inl plus) =>
        .ok ⟨constants.intern s slash .None, slash, plus, .None⟩
      | .ok (.inr (plus, start, rest2)) =>
        match params_from_str s rest2 start with
        | .error e => .error e
        | .ok params => .ok ⟨mkSource s slash start params, slash, plus, params⟩

end Rfc7231

namespace Cmp

/-- `Mime::essence` of the newer `mime-parse` crate, called by
`src/cmp.rs` but not itself under `src/`.  Modelled from the spec:
"Essence: the type, subtype, and suffix portion of a media type,
excluding parameters", i.e. the source up to the parameter list. -/
def essence (m : Mime) : List Nat := sliceB m.sourceStr 0 m.semicolonOrEnd

/-- The exact `size_hint` of the params iterator (`lib.rs:705`). -/
def sizeHint (m : Mime) : Nat :=
  match m.params with
  | .None => 0
  | .Utf8 _ => 1
  | .One _ _ => 1
  | .Two _ _ _ => 2
  | .Custom _ ps => ps.length

/-- `Value` of `src/value.rs`: a parameter value representation plus the
charset case-insensitivity flag. -/
structure Value where
  source : List Nat
  ascii_case_insensitive : Bool
deriving DecidableEq

/-- Content characters of a value representation.  `ContentChars` comes
from the external `quoted_string` crate; modelled from its documented
semantics quoted in `src/value.rs`: a representation starting with `"` has
its surrounding quotes removed and quoted-pairs unescaped, any other
representation is its own content. -/
def contentChars (v : List Nat) : List Nat :=
  match v with
  | 34 :: rest => stripQuoted rest
  | _ => v
where
  /-- Unescape until the closing quote. -/
  stripQuoted : List Nat → List Nat
    | [] => []
    | [34] => []
    | 92 :: c :: r => c :: stripQuoted r
    | c :: r => c :: stripQuoted r

/-- `PartialEq<Value> for Value` (`src/value.rs:115`): compare content
characters, case-insensitively if either side is the charset value. -/
def valueEq (a b : Value) : Bool :=
  if a.ascii_case_insensitive || b.ascii_case_insensitive then
    ciEq (contentChars a.source) (contentChars b.source)
  else contentChars a.source == contentChars b.source

/-- `value::params` (`src/value.rs:29`): pair each name with its `Value`,
case-insensitive exactly for the (already lower-cased) name `charset`. -/
def valueParams (m : Mime) : List (List Nat × Value) :=
  m.paramsList.map (fun nv => (nv.1, ⟨nv.2, nv.1 = bytes "charset"⟩))

/-- `value::param` (`src/value.rs:36`): first pair whose name equals the
key byte-for-byte. -/
def param (m : Mime) (key : List Nat) : Option Value :=
  ((valueParams m).find? (fun e => key = e.1)).map (fun e => e.2)

/-- `params_eq` (`src/cmp.rs:32`): exact size hints must agree, then every
left parameter must be present on the right with an equal value. -/
def params_eq (a b : Mime) : Bool :=
  sizeHint a == sizeHint b &&
  (valueParams a).all (fun nv => (param b nv.1).any (fun v2 => valueEq nv.2 v2))

/-- `mime_eq` (`src/cmp.rs:16`). -/
def mime_eq (a b : Mime) : Bool :=
  if a.atom = 0 ∨ b.atom = 0 then essence a == essence b && params_eq a b
  else a.atom == b.atom

/-- `str_eq` (`src/cmp.rs:3`): re-parse as a range when the mime has
parameters, else a direct case-insensitive comparison. -/
def str_eq (m : Mime) (s : List Nat) : Bool :=
  if m.has_params then
    match Rfc7231.parse true s with
    | .ok other => mime_eq m other
    | .error _ => false
  else ciEq m.sourceStr s

end Cmp

deriving instance DecidableEq for Except

/-- Whether a parameter table has the `Utf8` shape. -/
def isUtf8Shape : ParamSource → Bool
  | .Utf8 _ => true
  | _ => false

/-- The table constants of `constants.rs` (`mimes!` list order; their atom
ordinals are the successors of their positions, `__Dynamic` being 0). -/
def atomMimes : List Mime :=
  [constants.TEXT_PLAIN, constants.TEXT_PLAIN_UTF_8, constants.TEXT_HTML,
   constants.TEXT_HTML_UTF_8, constants.TEXT_CSS, constants.TEXT_CSS_UTF_8,
   constants.TEXT_JAVASCRIPT, constants.TEXT_XML, constants.TEXT_EVENT_STREAM,
   constants.TEXT_CSV, constants.TEXT_CSV_UTF_8, constants.TEXT_TAB_SEPARATED_VALUES,
   constants.TEXT_TAB_SEPARATED_VALUES_UTF_8, constants.TEXT_VCARD,
   constants.IMAGE_JPEG, constants.IMAGE_GIF, constants.IMAGE_PNG, constants.IMAGE_BMP,
   constants.IMAGE_SVG, constants.FONT_WOFF, constants.FONT_WOFF2,
   constants.APPLICATION_JSON, constants.APPLICATION_JAVASCRIPT,
   constants.APPLICATION_JAVASCRIPT_UTF_8, constants.APPLICATION_WWW_FORM_URLENCODED,
   constants.APPLICATION_OCTET_STREAM, constants.APPLICATION_MSGPACK,
   constants.APPLICATION_PDF, constants.APPLICATION_DNS, constants.STAR_STAR,
   constants.TEXT_STAR, constants.IMAGE_STAR, constants.VIDEO_STAR, constants.AUDIO_STAR]

/-- The structural slow path of the equality relation: essence comparison
plus parameter-set comparison (`lib.rs:216`). -/
def structEq (a b : Mime) : Bool :=
  MimeParse.eq_type_subtype a b && MimeParse.eq_of_params a b

/-- Parsing `s` as a range succeeds with a nonzero atom identity. -/
def parsedAtomNonzero (s : List Nat) : Bool :=
  match MimeParse.parse s true with
  | .ok m => m.atom != 0
  | .error _ => false

/-- C1: the code slip refuted by evaluation.  Parsing `a/b; x=AB` and
`a/b; x=ab` yields mimes whose parameter lists differ (the values `AB`
and `ab` are distinct, and `x` is not `charset`, so per the contract the
mimes must be unequal), yet `Mime::eq` returns `true`: `eq_of_params`
collects `self.params()` into both hash maps (`lib.rs:173-174`), so
parameter values are never actually compared. -/
theorem C1_eq_of_params_bug :
    MimeParse.parse (bytes "a/b; x=AB") true =
      .ok ⟨.Dynamic (bytes "a/b; x=AB"), 1, none, .One 3 ((5, 6), (7, 9))⟩
    ∧ MimeParse.parse (bytes "a/b; x=ab") true =
      .ok ⟨.Dynamic (bytes "a/b; x=ab"), 1, none, .One 3 ((5, 6), (7, 9))⟩
    ∧ Mime.paramsList ⟨.Dynamic (bytes "a/b; x=AB"), 1, none, .One 3 ((5, 6), (7, 9))⟩ =
        [(bytes "x", bytes "AB")]
    ∧ Mime.paramsList ⟨.Dynamic (bytes "a/b; x=ab"), 1, none, .One 3 ((5, 6), (7, 9))⟩ =
        [(bytes "x", bytes "ab")]
    ∧ MimeParse.mimeEq ⟨.Dynamic (bytes "a/b; x=AB"), 1, none, .One 3 ((5, 6), (7, 9))⟩
        ⟨.Dynamic (bytes "a/b; x=ab"), 1, none, .One 3 ((5, 6), (7, 9))⟩ = true := by
  refine ⟨by decide, by decide, by decide, by decide, by decide⟩

/-- C2: the atom fast path agrees with the structural slow path.  Over the
interning table (the only source of `Atom` identities), two constants with
nonzero identities have equal identities exactly when the structural
essence-plus-parameters comparison succeeds; and parsing any table-listed
constant string (twice — parse is a function, so both runs are literally
the same computation) yields the same nonzero atom identity. -/
theorem C2_atom_fast_path :
    (∀ a ∈ atomMimes, ∀ b ∈ atomMimes,
      a.atom ≠ 0 → b.atom ≠ 0 → (a.atom = b.atom ↔ structEq a b = true))
    ∧ (∀ s ∈ atomMimes.map Mime.sourceStr, ∀ m1 m2,
        MimeParse.parse s true = .ok m1 → MimeParse.parse s true = .ok m2 →
        m1.atom = m2.atom ∧ m1.atom ≠ 0) := by
  constructor
  · decide
  · have h : ∀ s ∈ atomMimes.map Mime.sourceStr, parsedAtomNonzero s = true := by decide
    intro s hs m1 m2 h1 h2
    rw [h1] at h2
    cases h2
    have hb := h s hs
    unfold parsedAtomNonzero at hb
    rw [h1] at hb
    simpa using hb

/-- Witness for C2 at concrete table entries. -/
theorem C2_atom_fast_path_witness :
    (constants.TEXT_PLAIN.atom = constants.TEXT_PLAIN_UTF_8.atom ↔
      structEq constants.TEXT_PLAIN constants.TEXT_PLAIN_UTF_8 = true)
    ∧ ∀ m1 m2, MimeParse.parse (bytes "text/plain; charset=utf-8") true = .ok m1 →
        MimeParse.parse (bytes "text/plain; charset=utf-8") true = .ok m2 →
        m1.atom = m2.atom ∧ m1.atom ≠ 0 :=
  ⟨C2_atom_fast_path.1 constants.TEXT_PLAIN (by decide) constants.TEXT_PLAIN_UTF_8
      (by decide) (by decide) (by decide),
   C2_atom_fast_path.2 (bytes "text/plain; charset=utf-8") (by decide)⟩

/-- C8: the literal `*/*` is handled before any general scanning: with
ranges forbidden it is `Err(InvalidRange)`, with ranges permitted it is
the interned `STAR_STAR` (`any/any`) constant with nonzero identity.
Both parser versions agree. -/
theorem C8_star_star_gate :
    MimeParse.parse (bytes "*/*") false = .error .InvalidRange
    ∧ MimeParse.parse (bytes "*/*") true = .ok constants.STAR_STAR
    ∧ Rfc7231.parse false (bytes "*/*") = .error .InvalidRange
    ∧ Rfc7231.parse true (bytes "*/*") = .ok constants.STAR_STAR
    ∧ constants.STAR_STAR.atom = 30
    ∧ constants.STAR_STAR.sourceStr = bytes "*/*"
    ∧ constants.STAR_STAR.type_ = bytes "*"
    ∧ constants.STAR_STAR.subtype = bytes "*" := by
  refine ⟨by decide, by decide, by decide, by decide, by decide, by decide, by decide, by decide⟩

/-- C6 counterexample: in the `mime-parse/src/lib.rs` parameter scanner an
empty parameter is not universally accepted: `a/b;;x=1` is rejected with
`InvalidToken` at the second `;`; a trailing `;` followed by a space is
rejected with `MissingEqual` (the name loop skips the space and hits end
of input); and although a bare trailing `;` parses, it is kept in the
backing string, so the result is not equal to `parse("text/plain")`. -/
theorem C6_empty_param_counterexample :
    MimeParse.parse (bytes "a/b;;x=1") true = .error (.InvalidToken 4 59)
    ∧ MimeParse.parse (bytes "text/plain; ") true = .error .MissingEqual
    ∧ MimeParse.parse (bytes "text/plain;") true =
        .ok ⟨.Dynamic (bytes "text/plain;"), 4, none, .None⟩
    ∧ MimeParse.parse (bytes "text/plain") true = .ok constants.TEXT_PLAIN
    ∧ MimeParse.mimeEq ⟨.Dynamic (bytes "text/plain;"), 4, none, .None⟩
        constants.TEXT_PLAIN = false := by
  refine ⟨by decide, by decide, by decide, by decide, by decide⟩

/-- C6 amended: in the `rfc7231.rs` parameter scanner (the cited
`params_from_str` with the explicit empty-parameter arm) a `;;` between
parameters and a trailing `;` are accepted and skipped: `text/plain;`
parses to the interned `text/plain` atom (the empty parameter list is
chopped off) and is equal to `parse("text/plain")` under the `cmp.rs`
equality; `a/b;;x=1` and `a/b; x=1;;y=2` parse with the empty parameters
skipped.  In the older `lib.rs` scanner only a trailing `;` is accepted
(see the counterexample). -/
theorem C6_empty_param_amended :
    Rfc7231.parse true (bytes "text/plain;") = .ok constants.TEXT_PLAIN
    ∧ Rfc7231.parse true (bytes "text/plain") = .ok constants.TEXT_PLAIN
    ∧ Cmp.mime_eq constants.TEXT_PLAIN constants.TEXT_PLAIN = true
    ∧ Rfc7231.parse true (bytes "a/b;;x=1") =
        .ok ⟨.Dynamic (bytes "a/b;;x=1"), 1, none, .One 3 ((5, 6), (7, 8))⟩
    ∧ Rfc7231.parse true (bytes "a/b; x=1;;y=2") =
        .ok ⟨.Dynamic (bytes "a/b; x=1;;y=2"), 1, none,
             .Two 3 ((5, 6), (7, 8)) ((10, 11), (12, 13))⟩
    ∧ Rfc7231.parse true (bytes "text/event-stream ; ") = .ok constants.TEXT_EVENT_STREAM := by
  refine ⟨by decide, by decide, by decide, by decide, by decide, by decide⟩

/-- C9 counterexample: `a/b;charset=utf-8` carries exactly one parameter
whose name is `charset` and whose value is `utf-8`, yet its table shape is
`One`, not `Utf8`: the promotion to `Utf8` additionally requires the name
to start exactly two bytes after the semicolon (`semicolon + 2 == name.0`,
i.e. `; ` with one space), which the claim omits. -/
theorem C9_utf8_shape_counterexample :
    MimeParse.parse (bytes "a/b;charset=utf-8") true =
      .ok ⟨.Dynamic (bytes "a/b;charset=utf-8"), 1, none, .One 3 ((4, 11), (12, 17))⟩
    ∧ Mime.paramsList ⟨.Dynamic (bytes "a/b;charset=utf-8"), 1, none, .One 3 ((4, 11), (12, 17))⟩ =
        [(bytes "charset", bytes "utf-8")]
    ∧ isUtf8Shape (.One 3 ((4, 11), (12, 17))) = false := by
  refine ⟨by decide, by decide, by decide⟩

/-- C5 counterexample: `subtype()` does not stop at the suffix marker.
For `image/svg+xml` the code returns `svg+xml` (the suffix is part of the
subtype); the claim's definition (`end` = the suffix marker when present)
would give `svg`. -/
theorem C5_subtype_counterexample :
    MimeParse.parse (bytes "image/svg+xml") true = .ok constants.IMAGE_SVG
    ∧ constants.IMAGE_SVG.plus = some 9
    ∧ constants.IMAGE_SVG.subtype = bytes "svg+xml"
    ∧ sliceB constants.IMAGE_SVG.sourceStr (5 + 1) 9 = bytes "svg"
    ∧ constants.IMAGE_SVG.subtype ≠ bytes "svg"
    ∧ constants.IMAGE_SVG.suffix = some (bytes "xml") := by
  refine ⟨by decide, by decide, by decide, by decide, by decide, by decide⟩

/-- C4 counterexample: for `a/b+c+d` the recorded suffix marker is the
last `+` of the subtype region (offset 5), not the first one (offset 3):
each later `+` overwrites `plus` (`lib.rs:296-299`). -/
theorem C4_plus_counterexample :
    MimeParse.parse (bytes "a/b+c+d") true =
      .ok ⟨.Dynamic (bytes "a/b+c+d"), 1, some 5, .None⟩
    ∧ (bytes "a/b+c+d").get? 3 = some 43
    ∧ (bytes "a/b+c+d").get? 5 = some 43
    ∧ (some 5 : Option Nat) ≠ some 3 := by
  refine ⟨by decide, by decide, by decide, by decide⟩

/-- C7 counterexample: the equal-length shortcut of `eq_str` disagrees
with re-parse plus the equality relation.  With
`m = parse("text/plain; charset=utf-8")` and
`s = "text/plain;charset=utf-80"` (equal lengths), `m.eq_str(s)` is
`false`, yet `s` re-parses successfully and `m == parse(s)` is `true`
(the `Undetermined` parameter comparison always succeeds because of the
`eq_of_params` self-comparison). -/
theorem C7_eq_str_counterexample :
    MimeParse.parse (bytes "text/plain; charset=utf-8") true = .ok constants.TEXT_PLAIN_UTF_8
    ∧ MimeParse.eq_str constants.TEXT_PLAIN_UTF_8 (bytes "text/plain;charset=utf-80") = false
    ∧ MimeParse.parse (bytes "text/plain;charset=utf-80") true =
        .ok ⟨.Dynamic (bytes "text/plain;charset=utf-80"), 4, none, .One 10 ((11, 18), (19, 25))⟩
    ∧ MimeParse.mimeEq constants.TEXT_PLAIN_UTF_8
        ⟨.Dynamic (bytes "text/plain;charset=utf-80"), 4, none, .One 10 ((11, 18), (19, 25))⟩ = true := by
  refine ⟨by decide, by decide, by decide, by decide⟩

/-! ### List and byte plumbing for the universal theorems -/

theorem lowerByte_lowerByte (c : Nat) : lowerByte (lowerByte c) = lowerByte c := by
  unfold lowerByte
  split_ifs with h1 h2 h2 <;> omega

theorem lowerBytes_lowerBytes (s : List Nat) : lowerBytes (lowerBytes s) = lowerBytes s := by
  simp [lowerBytes, List.map_map, Function.comp_def, lowerByte_lowerByte]

theorem lowerBytes_length (s : List Nat) : (lowerBytes s).length = s.length := by
  simp [lowerBytes]

theorem ciEq_iff_lower (a b : List Nat) : ciEq a b = true ↔ lowerBytes a = lowerBytes b := by
  simp [ciEq]

theorem drop_cons_facts {s : List Nat} {i c : Nat} {r : List Nat}
    (h : s.drop i = c :: r) :
    s.get? i = some c ∧ s.drop (i + 1) = r ∧ i < s.length := by
  have h1 : s.get? i = some c := by
    have := List.get?_drop s i 0
    simp [h] at this
    simpa using this.symm
  have h3 : i < s.length := by
    by_contra hc
    rw [List.drop_eq_nil_of_le (by omega)] at h
    cases h
  have h2 : s.drop (i + 1) = r := by
    have := List.tail_drop s i
    rw [h] at this
    simpa using this.symm
  exact ⟨h1, h2, h3⟩

theorem drop_nil_facts {s : List Nat} {i : Nat} (h : s.drop i = []) : s.length ≤ i := by
  by_contra hc
  have := List.drop_eq_nil_iff_le.mp h
  omega

theorem get?_lt_length {s : List Nat} {i c : Nat} (h : s.get? i = some c) : i < s.length := by
  by_contra hc
  rw [List.get?_eq_none.mpr (by omega)] at h
  cases h

theorem sliceB_length (s : List Nat) (a b : Nat) :
    (sliceB s a b).length = min b s.length - a := by
  simp [sliceB]

theorem sliceB_get? (s : List Nat) (a b k : Nat) :
    (sliceB s a b).get? k = if a + k < b then s.get? (a + k) else none := by
  unfold sliceB
  rw [List.get?_drop]
  by_cases h : a + k < b
  · rw [if_pos h, List.get?_take h]
  · rw [if_neg h]
    apply List.get?_eq_none.mpr
    simp only [List.length_drop, List.length_take]
    omega

theorem mapIdxFrom_length (f : Nat → Nat → Nat) : ∀ (k : Nat) (s : List Nat),
    (mapIdxFrom f k s).length = s.length := by
  intro k s
  induction s generalizing k with
  | nil => rfl
  | cons c r ih => simp [mapIdxFrom, ih]

theorem mapIdxFrom_get? (f : Nat → Nat → Nat) : ∀ (s : List Nat) (k j : Nat),
    (mapIdxFrom f k s).get? j = (s.get? j).map (f (k + j)) := by
  intro s
  induction s with
  | nil => intro k j; simp [mapIdxFrom]
  | cons c r ih =>
    intro k j
    cases j with
    | zero => simp [mapIdxFrom]
    | succ j' =>
      simp only [mapIdxFrom, List.get?]
      rw [ih (k + 1) j']
      have harith : k + 1 + j' = k + (j' + 1) := by omega
      rw [harith]

theorem mapIdxFrom_take (f : Nat → Nat → Nat) : ∀ (s : List Nat) (k b : Nat),
    (mapIdxFrom f k s).take b = mapIdxFrom f k (s.take b) := by
  intro s
  induction s with
  | nil => intro k b; simp [mapIdxFrom]
  | cons c r ih =>
    intro k b
    cases b with
    | zero => simp [mapIdxFrom]
    | succ b' => simp [mapIdxFrom, ih]

theorem mapIdxFrom_drop (f : Nat → Nat → Nat) : ∀ (s : List Nat) (k a : Nat),
    (mapIdxFrom f k s).drop a = mapIdxFrom f (k + a) (s.drop a) := by
  intro s
  induction s with
  | nil => intro k a; simp [mapIdxFrom]
  | cons c r ih =>
    intro k a
    cases a with
    | zero => simp [mapIdxFrom]
    | succ a' =>
      simp only [mapIdxFrom, List.drop_succ_cons]
      rw [ih (k + 1) a']
      congr 1
      omega

theorem lowerIf_length (P : Nat → Bool) (s : List Nat) : (lowerIf P s).length = s.length :=
  mapIdxFrom_length _ _ _

theorem lowerIf_get? (P : Nat → Bool) (s : List Nat) (j : Nat) :
    (lowerIf P s).get? j = (s.get? j).map (fun c => if P j then lowerByte c else c) := by
  unfold lowerIf
  rw [mapIdxFrom_get?]
  simp

theorem lowerIf_congr {P Q : Nat → Bool} (h : ∀ j, P j = Q j) (s : List Nat) :
    lowerIf P s = lowerIf Q s := by
  apply List.ext_get?
  intro j
  rw [lowerIf_get?, lowerIf_get?, h]

theorem lowerIf_lowerIf (P Q : Nat → Bool) (s : List Nat) :
    lowerIf P (lowerIf Q s) = lowerIf (fun j => P j || Q j) s := by
  apply List.ext_get?
  intro j
  rw [lowerIf_get?, lowerIf_get?, lowerIf_get?]
  cases hs : s.get? j with
  | none => rfl
  | some c =>
    simp only [Option.map_some']
    cases hP : P j <;> cases hQ : Q j <;> simp [lowerByte_lowerByte]

theorem lowerIf_true (s : List Nat) : lowerIf (fun _ => true) s = lowerBytes s := by
  apply List.ext_get?
  intro j
  rw [lowerIf_get?]
  simp [lowerBytes]

theorem mapIdxFrom_lower_all {P : Nat → Bool} : ∀ (t : List Nat) (k : Nat),
    (∀ j, k ≤ j → j < k + t.length → P j = true) →
    mapIdxFrom (fun j c => if P j then lowerByte c else c) k t = lowerBytes t := by
  intro t
  induction t with
  | nil => intro k _; rfl
  | cons c r ih =>
    intro k hall
    have hk : P k = true := hall k (by omega) (by simp only [List.length_cons]; omega)
    have htail := ih (k + 1)
      (fun j h1 h2 => hall j (by omega) (by simp only [List.length_cons]; omega))
    simp only [mapIdxFrom, hk, if_true, lowerBytes, List.map]
    rw [htail]
    rfl

theorem sliceB_lowerIf_covered {P : Nat → Bool} {s : List Nat} {a b : Nat}
    (h : ∀ j, a ≤ j → j < b → P j = true) :
    sliceB (lowerIf P s) a b = lowerBytes (sliceB s a b) := by
  unfold sliceB lowerIf
  rw [mapIdxFrom_take, mapIdxFrom_drop]
  apply mapIdxFrom_lower_all
  intro j h1 h2
  apply h j (by omega)
  have hlen : ((s.take b).drop a).length ≤ b - a := by
    simp
    omega
  omega

theorem sliceB_lowerIf_uncovered {P : Nat → Bool} {s : List Nat} {a b : Nat}
    (h : ∀ j, a ≤ j → j < b → P j = false) :
    sliceB (lowerIf P s) a b = sliceB s a b := by
  apply List.ext_get?
  intro k
  rw [sliceB_get?, sliceB_get?]
  by_cases hk : a + k < b
  · rw [if_pos hk, if_pos hk, lowerIf_get?, h (a + k) (by omega) hk]
    simp
  · rw [if_neg hk, if_neg hk]

/-! ### The round-trip target: positional description of the lower-casing -/

/-- Byte `j` lies in the name range of pair `p`. -/
def nameCovers (p : IndexedPair) (j : Nat) : Bool :=
  decide (p.1.1 ≤ j) && decide (j < p.1.2)

/-- Byte `j` lies in the value range of pair `p` and `p`'s name is
`charset` up to ASCII case. -/
def charsetValueCovers (s : List Nat) (p : IndexedPair) (j : Nat) : Bool :=
  ciEq (sliceB s p.1.1 p.1.2) (bytes "charset") && (decide (p.2.1 ≤ j) && decide (j < p.2.2))

/-- The claim's lower-cased positions: the essence span before the
parameter list, every parameter name, and the value of every parameter
named `charset` (case-insensitively); everything else is untouched. -/
def specLowersAt (s : List Nat) (semi : Nat) (ps : List IndexedPair) (j : Nat) : Bool :=
  decide (j < semi) || ps.any (fun p => nameCovers p j) ||
    ps.any (fun p => charsetValueCovers s p j)

/-- The claim's expected output string: `s` with exactly the positions of
`specLowersAt` ASCII-lower-cased. -/
def specLower (s : List Nat) (semi : Nat) (ps : List IndexedPair) : List Nat :=
  lowerIf (specLowersAt s semi ps) s

theorem lower_eq_charset_iff (x : List Nat) :
    lowerBytes x = bytes "charset" ↔ ciEq x (bytes "charset") = true := by
  rw [ciEq_iff_lower]
  have h : lowerBytes (bytes "charset") = bytes "charset" := by decide
  rw [h]

theorem lower_fold_aux (s : List Nat) : ∀ (ps : List IndexedPair) (P : Nat → Bool),
    ps.foldl
      (fun owned p =>
        let owned1 := lowerRange owned p.1.1 p.1.2
        if sliceB owned1 p.1.1 p.1.2 = bytes "charset" then lowerRange owned1 p.2.1 p.2.2
        else owned1)
      (lowerIf P s)
    = lowerIf (fun j => (P j || ps.any (fun p => nameCovers p j)) ||
        ps.any (fun p => charsetValueCovers s p j)) s := by
  intro ps
  induction ps with
  | nil =>
    intro P
    simp only [List.foldl_nil, List.any_nil]
    exact (lowerIf_congr (fun j => by simp) s).symm
  | cons p ps' ih =>
    intro P
    rw [List.foldl_cons]
    have howned1 : lowerRange (lowerIf P s) p.1.1 p.1.2 =
        lowerIf (fun j => (decide (p.1.1 ≤ j) && decide (j < p.1.2)) || P j) s := by
      unfold lowerRange
      exact lowerIf_lowerIf _ _ s
    have hslice : sliceB (lowerRange (lowerIf P s) p.1.1 p.1.2) p.1.1 p.1.2 =
        lowerBytes (sliceB s p.1.1 p.1.2) := by
      rw [howned1]
      exact sliceB_lowerIf_covered (fun j h1 h2 => by simp [h1, h2])
    simp only [hslice]
    by_cases hc : ciEq (sliceB s p.1.1 p.1.2) (bytes "charset") = true
    · rw [if_pos ((lower_eq_charset_iff _).mpr hc)]
      have hval : lowerRange (lowerRange (lowerIf P s) p.1.1 p.1.2) p.2.1 p.2.2 =
          lowerIf (fun j => (decide (p.2.1 ≤ j) && decide (j < p.2.2)) ||
            ((decide (p.1.1 ≤ j) && decide (j < p.1.2)) || P j)) s := by
        rw [howned1]
        unfold lowerRange
        exact lowerIf_lowerIf _ _ s
      rw [hval, ih]
      apply lowerIf_congr
      intro j
      simp only [List.any_cons, nameCovers, charsetValueCovers, hc, Bool.true_and]
      cases hn1 : decide (p.1.1 ≤ j) <;> cases hn2 : decide (j < p.1.2) <;>
        cases hv1 : decide (p.2.1 ≤ j) <;> cases hv2 : decide (j < p.2.2) <;>
        cases hP : P j <;> simp
    · rw [if_neg (fun hcon => hc ((lower_eq_charset_iff _).mp hcon))]
      rw [howned1, ih]
      apply lowerIf_congr
      intro j
      have hcf : ciEq (sliceB s p.1.1 p.1.2) (bytes "charset") = false :=
        Bool.eq_false_iff.mpr hc
      simp only [List.any_cons, nameCovers, charsetValueCovers, hcf, Bool.false_and]
      cases hn1 : decide (p.1.1 ≤ j) <;> cases hn2 : decide (j < p.1.2) <;>
        cases hP : P j <;> simp

/-- `lower_ascii_with_params` computes exactly the claim's positional
lower-casing. -/
theorem lower_ascii_eq_spec (s : List Nat) (semi : Nat) (ps : List IndexedPair) :
    lower_ascii_with_params s semi ps = specLower s semi ps := by
  unfold lower_ascii_with_params specLower
  have hinit : lowerRange s 0 semi = lowerIf (fun j => decide (j < semi)) s := by
    unfold lowerRange
    apply lowerIf_congr
    intro j
    simp
  rw [hinit, lower_fold_aux]
  apply lowerIf_congr
  intro j
  unfold specLowersAt
  cases h1 : decide (j < semi) <;>
    cases h2 : ps.any (fun p => nameCovers p j) <;>
    cases h3 : ps.any (fun p => charsetValueCovers s p j) <;> simp

/-! ### Scanner invariants: toplevel and sublevel loops -/

/-- The greatest index `j` with `lo ≤ j < hi`, `start < j` and `s[j] = '+'`
(scanning downward from `hi`), or `none`. -/
def lastPlusIn (s : List Nat) (start lo : Nat) : Nat → Option Nat
  | 0 => none
  | h + 1 =>
    if h < lo then none
    else if s.get? h = some 43 ∧ start < h then some h
    else lastPlusIn s start lo h

/-- First-some choice between a scan result and an accumulator. -/
def orElseO (o acc : Option Nat) : Option Nat :=
  match o with
  | some j => some j
  | none => acc

theorem lastPlusIn_empty (s : List Nat) (start lo : Nat) : ∀ hi, hi ≤ lo →
    lastPlusIn s start lo hi = none := by
  intro hi
  induction hi with
  | zero => intro _; rfl
  | succ h ih =>
    intro hle
    unfold lastPlusIn
    rw [if_pos (by omega)]

theorem lastPlusIn_skip {s : List Nat} {start i c : Nat}
    (hc : s.get? i = some c) (hno : ¬(c = 43 ∧ start < i)) : ∀ hi,
    lastPlusIn s start i hi = lastPlusIn s start (i + 1) hi := by
  have hcnd : ¬(s.get? i = some 43 ∧ start < i) := by
    intro hcon
    rw [hc] at hcon
    have hc43 : c = 43 := by injection hcon.1
    exact hno ⟨hc43, hcon.2⟩
  intro hi
  induction hi with
  | zero => rfl
  | succ h ih =>
    unfold lastPlusIn
    by_cases h1 : h < i
    · rw [if_pos h1, if_pos (show h < i + 1 from by omega)]
    · by_cases h2 : h = i
      · subst h2
        rw [if_neg h1, if_neg hcnd, if_pos (Nat.lt_succ_self h),
          lastPlusIn_empty s start h h (le_refl h)]
      · rw [if_neg h1, if_neg (show ¬ h < i + 1 from by omega)]
        by_cases h3 : s.get? h = some 43 ∧ start < h
        · rw [if_pos h3, if_pos h3]
        · rw [if_neg h3, if_neg h3, ih]

theorem lastPlusIn_hit {s : List Nat} {start i : Nat}
    (hc : s.get? i = some 43) (hlt : start < i) : ∀ hi, i < hi → ∀ acc,
    orElseO (lastPlusIn s start i hi) acc =
      orElseO (lastPlusIn s start (i + 1) hi) (some i) := by
  intro hi
  induction hi with
  | zero => intro h; omega
  | succ h ih =>
    intro hih acc
    unfold lastPlusIn
    by_cases h1 : h < i
    · omega
    · by_cases h2 : h = i
      · subst h2
        rw [if_neg h1, if_pos ⟨hc, hlt⟩, if_pos (Nat.lt_succ_self h)]
        rfl
      · rw [if_neg h1, if_neg (show ¬ h < i + 1 from by omega)]
        by_cases h3 : s.get? h = some 43 ∧ start < h
        · rw [if_pos h3, if_pos h3]
          rfl
        · rw [if_neg h3, if_neg h3]
          exact ih (by omega) acc

/-- Post-conditions of the toplevel loop: the returned index is the first
`/` position, it is positive, and the remainder is the tail after it. -/
theorem toplevel_ok {s : List Nat} : ∀ {rest : List Nat} {i slash : Nat} {rest' : List Nat},
    rest = s.drop i → MimeParse.toplevel rest i = .ok (slash, rest') →
    i ≤ slash ∧ s.get? slash = some 47 ∧ 0 < slash ∧ rest' = s.drop (slash + 1) ∧
      slash < s.length := by
  intro rest
  induction rest with
  | nil => intro i slash rest' hr h; cases h
  | cons c r ih =>
    intro i slash rest' hr h
    obtain ⟨hgi, hdrop, hlen⟩ := drop_cons_facts hr.symm
    unfold MimeParse.toplevel at h
    split_ifs at h with h1 h2
    · obtain ⟨ha, hb, hc, hd, he⟩ := ih hdrop.symm h
      exact ⟨by omega, hb, hc, hd, he⟩
    · injection h with h'
      injection h' with hs hrest
      subst hs
      subst hrest
      refine ⟨le_refl _, ?_, h2.2, hdrop.symm, hlen⟩
      rw [hgi, show c = 47 from h2.1]

/-- Post-conditions of the sublevel loop of `MimeParse.parse`: on the
end-of-input result the recorded `plus` is the last `+` strictly after
`start` in the scanned region; on the parameter result additionally the
break position holds a `;` (both for the plain arm and the `*` arm). -/
theorem sublevel_ok {s : List Nat} {cr : Bool} : ∀ {rest : List Nat} {i start : Nat}
    {plus : Option Nat} {res},
    rest = s.drop i → MimeParse.sublevel cr rest i start plus = .ok res →
    (∀ p, res = .inl p → p = orElseO (lastPlusIn s start i s.length) plus) ∧
    (∀ p st rest2, res = .inr (p, st, rest2) →
      p = orElseO (lastPlusIn s start i st) plus ∧ s.get? st = some 59 ∧
      rest2 = s.drop (st + 1) ∧ i ≤ st ∧ st < s.length) := by
  intro rest
  induction rest with
  | nil =>
    intro i start plus res hr h
    have hlen := drop_nil_facts hr.symm
    unfold MimeParse.sublevel at h
    injection h with h'
    subst h'
    refine ⟨fun p hp => ?_, fun p st rest2 hp => nomatch hp⟩
    injection hp with hp'
    subst hp'
    rw [lastPlusIn_empty s start i s.length hlen]
    rfl
  | cons c r ih =>
    intro i start plus res hr h
    obtain ⟨hgi, hdrop, hlen⟩ := drop_cons_facts hr.symm
    unfold MimeParse.sublevel at h
    split_ifs at h with h1 h2 h3
    · -- `+` strictly after the start: recorded, scan continues
      obtain ⟨hA, hB⟩ := ih hdrop.symm h
      have hplus : s.get? i = some 43 := by rw [hgi, show c = 43 from h1.1]
      constructor
      · intro p hp
        rw [hA p hp]
        exact (lastPlusIn_hit hplus h1.2 s.length hlen plus).symm
      · intro p st rest2 hp
        obtain ⟨ha, hb, hc', hd, he⟩ := hB p st rest2 hp
        refine ⟨?_, hb, hc', by omega, he⟩
        rw [ha]
        exact (lastPlusIn_hit hplus h1.2 st (by omega) plus).symm
    · -- `;` strictly after the start: parameter region begins at `i`
      injection h with h'
      subst h'
      refine ⟨(fun p hp => nomatch hp), fun p st rest2 hp => ?_⟩
      simp only [Sum.inr.injEq, Prod.mk.injEq] at hp
      obtain ⟨hp1, hp2, hp3⟩ := hp
      subst hp1
      subst hp2
      subst hp3
      have hsemi : s.get? i = some 59 := by rw [hgi, show c = 59 from h2.1]
      exact ⟨by rw [lastPlusIn_empty s start i i (le_refl i)]; rfl, hsemi, hdrop.symm,
        le_refl i, hlen⟩
    · -- `*` at the subtype start with ranges permitted
      have hstar : s.get? i = some 42 := by rw [hgi, show c = 42 from h3.1]
      have hskip : lastPlusIn s start i (i + 1) = none := by
        rw [lastPlusIn_skip hstar (by simp) (i + 1)]
        exact lastPlusIn_empty s start (i + 1) (i + 1) (le_refl _)
      cases r with
      | nil =>
        simp only [MimeParse.starNext] at h
        injection h with h'
        subst h'
        have hlen2 := drop_nil_facts hdrop
        refine ⟨fun p hp => ?_, fun p st rest2 hp => nomatch hp⟩
        injection hp with hp'
        subst hp'
        have : s.length = i + 1 := by omega
        rw [this]
        rw [hskip]
        rfl
      | cons c2 rest2 =>
        obtain ⟨hgi2, hdrop2, hlen2⟩ := drop_cons_facts hdrop
        simp only [MimeParse.starNext] at h
        split_ifs at h with h4
        injection h with h'
        subst h'
        refine ⟨(fun p hp => nomatch hp), fun p st rest3 hp => ?_⟩
        simp only [Sum.inr.injEq, Prod.mk.injEq] at hp
        obtain ⟨hp1, hp2, hp3⟩ := hp
        subst hp1
        subst hp2
        subst hp3
        have hsemi : s.get? (i + 1) = some 59 := by rw [hgi2, show c2 = 59 from h4]
        exact ⟨by rw [hskip]; rfl, hsemi, hdrop2.symm, by omega, hlen2⟩
    · -- plain token byte: scan continues
      obtain ⟨hA, hB⟩ := ih hdrop.symm h
      have hnotrec : ¬(c = 43 ∧ start < i) := h1
      constructor
      · intro p hp
        rw [hA p hp]
        rw [lastPlusIn_skip hgi hnotrec s.length]
      · intro p st rest2 hp
        obtain ⟨ha, hb, hc', hd, he⟩ := hB p st rest2 hp
        refine ⟨?_, hb, hc', by omega, he⟩
        rw [ha, lastPlusIn_skip hgi hnotrec st]

/-! ### Scanner invariants: the parameter region -/

/-- Post-conditions of the parameter-name loop: leading spaces are skipped
(and recorded as spaces in `s`), the name is non-empty, ends right before
a `=`, and scanning resumes just after the `=`. -/
theorem nameLoop_ok {s : List Nat} : ∀ {rest : List Nat} {i start : Nat}
    {n : Nat × Nat} {start1 : Nat} {rest1 : List Nat},
    rest = s.drop i → start ≤ i →
    MimeParse.nameLoop rest i start = .ok (n, start1, rest1) →
    start ≤ n.1 ∧ n.1 < n.2 ∧ s.get? n.2 = some 61 ∧ n.2 < s.length ∧
      start1 = n.2 + 1 ∧ rest1 = s.drop (n.2 + 1) ∧ i ≤ n.2 ∧
      (∀ j, start ≤ j → j < n.1 → s.get? j = some 32) := by
  intro rest
  induction rest with
  | nil => intro i start n start1 rest1 hr hsi h; cases h
  | cons c r ih =>
    intro i start n start1 rest1 hr hsi h
    obtain ⟨hgi, hdrop, hlen⟩ := drop_cons_facts hr.symm
    unfold MimeParse.nameLoop at h
    split_ifs at h with h1 h2 h3
    · -- leading space at the start
      obtain ⟨ha, hb, hc', hd, he, hf, hg, hsp⟩ := ih hdrop.symm (le_refl _) h
      have hspace : s.get? i = some 32 := by rw [hgi, show c = 32 from h1.1]
      refine ⟨by omega, hb, hc', hd, he, hf, by omega, ?_⟩
      intro j hj1 hj2
      by_cases hj : j ≤ i
      · have : j = i := by omega
        rw [this, hspace]
      · exact hsp j (by omega) hj2
    · -- token byte of the name
      obtain ⟨ha, hb, hc', hd, he, hf, hg, hsp⟩ := ih hdrop.symm (by omega) h
      exact ⟨ha, hb, hc', hd, he, hf, by omega, hsp⟩
    · -- `=` ends the name
      injection h with h'
      simp only [Prod.mk.injEq] at h'
      obtain ⟨hn, hs1, hr1⟩ := h'
      subst hn
      subst hs1
      subst hr1
      have heq : s.get? i = some 61 := by rw [hgi, show c = 61 from h3.1]
      exact ⟨le_refl _, h3.2, heq, hlen, rfl, hdrop.symm, le_refl _,
        fun j hj1 hj2 => by omega⟩

/-- Post-conditions of the quoted-value scanner: the value starts at the
opening quote and ends just after the closing one, within bounds. -/
theorem valueQuoted_ok {s : List Nat} {v : Nat × Nat} {vi1 : Nat} {vrest1 : List Nat} :
    ∀ {rest : List Nat} {i start : Nat},
    rest = s.drop i → MimeParse.valueQuoted rest i start = .ok (v, vi1, vrest1) →
    v.1 = start ∧ vi1 = v.2 ∧ vrest1 = s.drop v.2 ∧ v.2 ≤ s.length ∧ i < v.2 := by
  intro rest i start
  induction rest, i, start using MimeParse.valueQuoted.induct with
  | case1 i start => intro hr h; cases h
  | case2 c rest i start h1 =>
    intro hr h
    obtain ⟨hgi, hdrop, hlen⟩ := drop_cons_facts hr.symm
    rw [MimeParse.valueQuoted.eq_def] at h
    simp only [] at h
    rw [if_pos h1] at h
    injection h with h'
    simp only [Prod.mk.injEq] at h'
    obtain ⟨hv, hi1, hr1⟩ := h'
    subst hv hi1 hr1
    exact ⟨rfl, rfl, hdrop.symm, by omega, by omega⟩
  | case3 i start h1 =>
    intro hr h
    rw [MimeParse.valueQuoted.eq_def] at h
    simp only [] at h
    rw [if_neg h1, if_pos trivial] at h
    cases h
  | case4 i start c2 rest2 hrq h1 ih =>
    intro hr h
    obtain ⟨hgi, hdrop, hlen⟩ := drop_cons_facts hr.symm
    obtain ⟨hgi2, hdrop2, hlen2⟩ := drop_cons_facts hdrop
    rw [MimeParse.valueQuoted.eq_def] at h
    simp only [] at h
    rw [if_neg h1, if_pos trivial, if_pos hrq] at h
    obtain ⟨ha, hb, hc', hd, he⟩ := ih hdrop2.symm h
    exact ⟨ha, hb, hc', hd, by omega⟩
  | case5 i start c2 rest2 hrq h1 =>
    intro hr h
    rw [MimeParse.valueQuoted.eq_def] at h
    simp only [] at h
    rw [if_neg h1, if_pos trivial, if_neg hrq] at h
    cases h
  | case6 c rest i start h1 h2 h3 ih =>
    intro hr h
    obtain ⟨hgi, hdrop, hlen⟩ := drop_cons_facts hr.symm
    rw [MimeParse.valueQuoted.eq_def] at h
    simp only [] at h
    rw [if_neg h1, if_neg h2, if_pos h3] at h
    obtain ⟨ha, hb, hc', hd, he⟩ := ih hdrop.symm h
    exact ⟨ha, hb, hc', hd, by omega⟩
  | case7 c rest i start h1 h2 h3 =>
    intro hr h
    rw [MimeParse.valueQuoted.eq_def] at h
    simp only [] at h
    rw [if_neg h1, if_neg h2, if_neg h3] at h
    cases h

/-- Post-conditions of the whitespace loop after a quoted value. -/
theorem wsLoop_ok {s : List Nat} : ∀ {rest : List Nat} {i : Nat}
    {start2 i2 : Nat} {rest2 : List Nat},
    rest = s.drop i → i ≤ s.length →
    MimeParse.wsLoop s.length rest i = .ok (start2, i2, rest2) →
    start2 = i2 ∧ rest2 = s.drop start2 ∧ i ≤ start2 ∧ start2 ≤ s.length := by
  intro rest
  induction rest with
  | nil =>
    intro i start2 i2 rest2 hr hle h
    have hge := drop_nil_facts hr.symm
    have hieq : i = s.length := by omega
    unfold MimeParse.wsLoop at h
    injection h with h'
    simp only [Prod.mk.injEq] at h'
    obtain ⟨ha, hb, hc'⟩ := h'
    subst ha hb hc'
    exact ⟨hieq.symm, by rw [List.drop_length], by omega, le_refl _⟩
  | cons c r ih =>
    intro i start2 i2 rest2 hr hle h
    obtain ⟨hgi, hdrop, hlen⟩ := drop_cons_facts hr.symm
    unfold MimeParse.wsLoop at h
    split_ifs at h with h1 h2
    · injection h with h'
      simp only [Prod.mk.injEq] at h'
      obtain ⟨ha, hb, hc'⟩ := h'
      subst ha hb hc'
      exact ⟨rfl, hdrop.symm, by omega, by omega⟩
    · obtain ⟨ha, hb, hc', hd⟩ := ih hdrop.symm (by omega) h
      exact ⟨ha, hb, by omega, hd⟩

/-- Post-conditions of the value scanner: the value starts at `start`, the
new `start` is in bounds and in sync with the remaining bytes, and the
value is either quoted (opening `"` at its first byte) or unquoted and
terminated by end of input or a `;`. -/
theorem valueScan_ok {s : List Nat} {v : Nat × Nat} {vstart2 vi2 : Nat} {vrest2 : List Nat} :
    ∀ {rest : List Nat} {i start : Nat},
    rest = s.drop i → start ≤ i → i ≤ s.length →
    MimeParse.valueScan s.length rest i start = .ok (v, vstart2, vi2, vrest2) →
    v.1 = start ∧ vstart2 = vi2 ∧ vrest2 = s.drop vstart2 ∧ vstart2 ≤ s.length ∧
      start ≤ vstart2 ∧ v.2 ≤ s.length ∧
      (s.get? v.1 = some 34 ∨
        ((v.2 = s.length ∧ vstart2 = s.length) ∨
          (s.get? v.2 = some 59 ∧ vstart2 = v.2 + 1))) := by
  intro rest i start
  induction rest, i, start using MimeParse.valueScan.induct s.length with
  | case1 i start =>
    intro hr hsi hile h
    have hge := drop_nil_facts hr.symm
    have hieq : i = s.length := by omega
    unfold MimeParse.valueScan at h
    injection h with h'
    simp only [Prod.mk.injEq] at h'
    obtain ⟨hv, hs2, hi2, hr2⟩ := h'
    subst hv hs2 hi2 hr2
    exact ⟨rfl, hieq.symm, by rw [List.drop_length], le_refl _, by omega, le_refl _,
      .inr (.inl ⟨rfl, rfl⟩)⟩
  | case2 c rest i start h1 e hq =>
    intro hr hsi hile h
    rw [MimeParse.valueScan.eq_def] at h
    simp only [] at h
    rw [if_pos h1, hq] at h
    cases h
  | case3 c rest i start h1 vq qi1 qrest1 hq e hw =>
    intro hr hsi hile h
    rw [MimeParse.valueScan.eq_def] at h
    simp only [] at h
    rw [if_pos h1, hq] at h
    simp only [] at h
    rw [hw] at h
    cases h
  | case4 c rest i start h1 vq qi1 qrest1 hq wstart2 wi2 wrest2 hw =>
    intro hr hsi hile h
    obtain ⟨hgi, hdrop, hlen⟩ := drop_cons_facts hr.symm
    rw [MimeParse.valueScan.eq_def] at h
    simp only [] at h
    rw [if_pos h1, hq] at h
    simp only [] at h
    rw [hw] at h
    injection h with h'
    simp only [Prod.mk.injEq] at h'
    obtain ⟨hv, hs2, hi2, hr2⟩ := h'
    subst hv hs2 hi2 hr2
    obtain ⟨qa, qb, qc, qd, qe⟩ := valueQuoted_ok hdrop.symm hq
    obtain ⟨wa, wb, wc, wd⟩ := wsLoop_ok (by rw [qc, qb]) (by omega) hw
    have hq34 : s.get? vq.1 = some 34 := by
      rw [qa, hgi, show c = 34 from h1.1]
    exact ⟨by rw [qa, h1.2], wa, wb, wd, by omega, by omega, .inl hq34⟩
  | case5 c rest i start h1 h2 ih =>
    intro hr hsi hile h
    obtain ⟨hgi, hdrop, hlen⟩ := drop_cons_facts hr.symm
    rw [MimeParse.valueScan.eq_def] at h
    simp only [] at h
    rw [if_neg h1, if_pos h2] at h
    obtain ⟨ha, hb, hc', hd, he, hf, hg⟩ := ih hdrop.symm (by omega) (by omega) h
    exact ⟨ha, hb, hc', hd, by omega, hf, hg⟩
  | case6 c rest i start h1 h2 h3 =>
    intro hr hsi hile h
    obtain ⟨hgi, hdrop, hlen⟩ := drop_cons_facts hr.symm
    rw [MimeParse.valueScan.eq_def] at h
    simp only [] at h
    rw [if_neg h1, if_neg h2, if_pos h3] at h
    injection h with h'
    simp only [Prod.mk.injEq] at h'
    obtain ⟨hv, hs2, hi2, hr2⟩ := h'
    subst hv hs2 hi2 hr2
    have hsemi : s.get? i = some 59 := by rw [hgi, show c = 59 from h3.1]
    exact ⟨rfl, rfl, hdrop.symm, by omega, by omega, by omega, .inr (.inr ⟨hsemi, rfl⟩)⟩
  | case7 c rest i start h1 h2 h3 =>
    intro hr hsi hile h
    rw [MimeParse.valueScan.eq_def] at h
    simp only [] at h
    rw [if_neg h1, if_neg h2, if_neg h3] at h
    cases h

/-! ### The parameter-shape invariant -/

/-- The `None → Utf8` promotion condition of `pushParam` (`lib.rs:486`). -/
def utf8Cond (s : List Nat) (semi : Nat) (n v : Nat × Nat) : Prop :=
  semi + 2 = n.1 ∧ ciEq (sliceB s n.1 n.2) (bytes "charset") = true ∧
    ciEq (sliceB s v.1 v.2) (bytes "utf-8") = true

/-- What a final `Utf8` shape guarantees about the raw input: the
parameter region is `"; " ++ charset-variant ++ "=" ++ utf-8-variant`. -/
def Utf8Facts (s : List Nat) (semi : Nat) : Prop :=
  s.get? semi = some 59 ∧ s.get? (semi + 1) = some 32 ∧
  ciEq (sliceB s (semi + 2) (semi + 9)) (bytes "charset") = true ∧
  s.get? (semi + 9) = some 61 ∧
  ciEq (sliceB s (semi + 10) (semi + 15)) (bytes "utf-8") = true

/-- After a final `Utf8` shape the input either ends right after the value
or carries exactly one further byte, a trailing `;`. -/
def Utf8End (s : List Nat) (semi : Nat) : Prop :=
  s.length = semi + 15 ∨ (s.length = semi + 16 ∧ s.get? (semi + 15) = some 59)

/-- Loop invariant of the `'params` loop, relating the current shape to
the raw input and the current `start`. -/
def ParamsInv (s : List Nat) (semi start : Nat) : ParamSource → Prop
  | .None => start = semi + 1
  | .Utf8 j => j = semi ∧ Utf8Facts s semi ∧
      ((start = semi + 15 ∧ s.length = semi + 15) ∨
        (start = semi + 16 ∧ s.get? (semi + 15) = some 59))
  | .One j nv => j = semi ∧ ¬ utf8Cond s semi nv.1 nv.2
  | .Two j _ _ => j = semi
  | .Custom j l => j = semi ∧ 3 ≤ l.length

/-- What holds of the shape returned by the `'params` loop. -/
def ParamsFinal (s : List Nat) (semi : Nat) : ParamSource → Prop
  | .None => s.length ≤ semi + 1
  | .Utf8 j => j = semi ∧ Utf8Facts s semi ∧ Utf8End s semi
  | .One j nv => j = semi ∧ ¬ utf8Cond s semi nv.1 nv.2
  | .Two j _ _ => j = semi
  | .Custom j l => j = semi ∧ 3 ≤ l.length

theorem ciEq_length {x y : List Nat} (h : ciEq x y = true) : x.length = y.length := by
  rw [ciEq_iff_lower] at h
  have := congrArg List.length h
  simpa [lowerBytes] using this

theorem quoted_not_utf8 {s : List Nat} {a b : Nat} (hq : s.get? a = some 34)
    (hc : ciEq (sliceB s a b) (bytes "utf-8") = true) : False := by
  have hlen : (sliceB s a b).length = 5 := by
    rw [ciEq_length hc]
    decide
  rw [ciEq_iff_lower] at hc
  have hl : lowerBytes (bytes "utf-8") = bytes "utf-8" := by decide
  rw [hl] at hc
  have h0 : (lowerBytes (sliceB s a b)).get? 0 = (bytes "utf-8").get? 0 := by rw [hc]
  have hab : a < b := by
    rw [sliceB_length] at hlen
    omega
  have hslice0 : (sliceB s a b).get? 0 = s.get? a := by
    rw [sliceB_get?, if_pos (by omega), Nat.add_zero]
  rw [show (bytes "utf-8").get? 0 = some 117 from by decide] at h0
  unfold lowerBytes at h0
  rw [List.get?_map, hslice0, hq] at h0
  cases h0

/-- One promotion step preserves the invariant. -/
theorem pushParam_inv {s : List Nat} {semi start : Nat} {params : ParamSource}
    {name value : Nat × Nat} {start1 start2 : Nat}
    (hsemi : s.get? semi = some 59)
    (hinv : ParamsInv s semi start params)
    (hn1 : start ≤ name.1) (hn12 : name.1 < name.2)
    (hneq : s.get? name.2 = some 61) (hn2len : name.2 < s.length)
    (hstart1 : start1 = name.2 + 1)
    (hsp : ∀ j, start ≤ j → j < name.1 → s.get? j = some 32)
    (hv1 : value.1 = start1)
    (hv2len : value.2 ≤ s.length)
    (hvdisj : s.get? value.1 = some 34 ∨
      ((value.2 = s.length ∧ start2 = s.length) ∨
        (s.get? value.2 = some 59 ∧ start2 = value.2 + 1)))
    (hs2len : start2 ≤ s.length) :
    ParamsInv s semi start2 (MimeParse.pushParam s semi params name value) := by
  cases params with
  | None =>
    have hstart : start = semi + 1 := hinv
    by_cases hc : utf8Cond s semi name value
    · obtain ⟨hc1, hc2, hc3⟩ := hc
      have hpush : MimeParse.pushParam s semi .None name value = .Utf8 semi := by
        rw [MimeParse.pushParam.eq_def]
        exact if_pos ⟨hc1, hc2, hc3⟩
      rw [hpush]
      have hn2 : name.2 = semi + 9 := by
        have h7 : (sliceB s name.1 name.2).length = 7 := by
          rw [ciEq_length hc2]
          decide
        rw [sliceB_length] at h7
        omega
      have hval1 : value.1 = semi + 10 := by omega
      have hunq : (value.2 = s.length ∧ start2 = s.length) ∨
          (s.get? value.2 = some 59 ∧ start2 = value.2 + 1) := by
        cases hvdisj with
        | inl hquote => exact (quoted_not_utf8 hquote hc3).elim
        | inr hrest => exact hrest
      have hv2 : value.2 = semi + 15 := by
        have h5 : (sliceB s value.1 value.2).length = 5 := by
          rw [ciEq_length hc3]
          decide
        rw [sliceB_length] at h5
        omega
      refine ⟨rfl, ⟨hsemi, ?_, ?_, ?_, ?_⟩, ?_⟩
      · exact hsp (semi + 1) (by omega) (by omega)
      · rw [hc1, ← hn2]
        exact hc2
      · rw [← hn2]
        exact hneq
      · rw [← hval1, ← hv2]
        exact hc3
      · cases hunq with
        | inl he =>
          obtain ⟨he1, he2⟩ := he
          exact .inl ⟨by omega, by omega⟩
        | inr he =>
          obtain ⟨he1, he2⟩ := he
          refine .inr ⟨by omega, ?_⟩
          rw [← hv2]
          exact he1
    · have hpush : MimeParse.pushParam s semi .None name value = .One semi (name, value) := by
        rw [MimeParse.pushParam.eq_def]
        exact if_neg hc
      rw [hpush]
      exact ⟨rfl, hc⟩
  | Utf8 j => exact rfl
  | One j nv => exact hinv.1
  | Two j a b => exact ⟨hinv, by simp⟩
  | Custom j l =>
    refine ⟨hinv.1, ?_⟩
    have := hinv.2
    simp only [List.length_append, List.length_cons, List.length_nil]
    omega

/-- The `'params` loop invariant: starting from any invariant-satisfying
state in sync with the input, a successful run ends in a shape satisfying
`ParamsFinal`. -/
theorem paramsLoop_ok {s : List Nat} {semi : Nat} {res : ParamSource}
    (hsemi : s.get? semi = some 59) :
    ∀ {fuel : Nat} {rest : List Nat} {i start : Nat} {params : ParamSource},
    rest = s.drop i → i = start → start ≤ s.length → ParamsInv s semi start params →
    MimeParse.paramsLoop s semi fuel rest i start params = .ok res →
    ParamsFinal s semi res := by
  intro fuel rest i start params
  induction fuel, rest, i, start, params using MimeParse.paramsLoop.induct s semi with
  | case1 rest i start params hlt =>
    intro hr hi hle hinv h
    rw [MimeParse.paramsLoop.eq_def] at h
    simp only [] at h
    rw [if_pos hlt] at h
    cases h
  | case2 rest i start params hlt fuel' e hname =>
    intro hr hi hle hinv h
    rw [MimeParse.paramsLoop.eq_def] at h
    simp only [] at h
    rw [if_pos hlt, hname] at h
    simp only [] at h
    cases h
  | case3 rest i start params hlt fuel' nm nstart1 nrest1 hname e hvs =>
    intro hr hi hle hinv h
    rw [MimeParse.paramsLoop.eq_def] at h
    simp only [] at h
    rw [if_pos hlt, hname] at h
    simp only [] at h
    rw [hvs] at h
    simp only [] at h
    cases h
  | case4 rest i start params hlt fuel' nm nstart1 nrest1 hname value start2 i2 rest2 hvs ih =>
    intro hr hi hle hinv h
    rw [MimeParse.paramsLoop.eq_def] at h
    simp only [] at h
    rw [if_pos hlt, hname] at h
    simp only [] at h
    rw [hvs] at h
    simp only [] at h
    subst hi
    obtain ⟨na, nb, nc, nd, ne', nf, ng, nsp⟩ := nameLoop_ok hr (le_refl _) hname
    obtain ⟨va, vb, vc, vd, ve, vf, vg⟩ :=
      valueScan_ok (by rw [nf, ne']) (le_refl _) (by omega) hvs
    exact ih (by rw [vc, vb]) vb.symm vd
      (pushParam_inv hsemi hinv na nb nc nd ne' nsp va vf vg vd) h
  | case5 fuel rest i start params hge =>
    intro hr hi hle hinv h
    rw [MimeParse.paramsLoop.eq_def] at h
    simp only [] at h
    rw [if_neg hge] at h
    injection h with h'
    subst h'
    cases params with
    | None =>
      have hstart : start = semi + 1 := hinv
      show s.length ≤ semi + 1
      omega
    | Utf8 j =>
      obtain ⟨hj, hf, hdisj⟩ := hinv
      refine ⟨hj, hf, ?_⟩
      cases hdisj with
      | inl he => exact .inl he.2
      | inr he => exact .inr ⟨by omega, he.2⟩
    | One j nv => exact hinv
    | Two j a b => exact hinv
    | Custom j l => exact hinv

/-! ### Slice decomposition and interning characterization -/

theorem drop_eq_cons_of_get? {s : List Nat} {k c : Nat} (h : s.get? k = some c) :
    s.drop k = c :: s.drop (k + 1) := by
  have hk : k < s.length := get?_lt_length h
  rw [List.get?_eq_getElem?, List.getElem?_eq_getElem hk] at h
  rw [List.drop_eq_getElem_cons hk]
  injection h with h'
  rw [h']

theorem sliceB_zero (s : List Nat) (b : Nat) : sliceB s 0 b = s.take b := by
  simp [sliceB]

theorem recompose {s : List Nat} {k : Nat} (hk : s.get? k = some 47) :
    s = s.take k ++ 47 :: s.drop (k + 1) := by
  conv_lhs => rw [← List.take_append_drop k s]
  rw [drop_eq_cons_of_get? hk]

theorem take_decompose {s : List Nat} {k m : Nat}
    (hk : s.get? k = some 47) (hkm : k < m) :
    s.take m = s.take k ++ 47 :: sliceB s (k + 1) m := by
  have h1 : s.take m = (s.take m).take k ++ (s.take m).drop k :=
    (List.take_append_drop k (s.take m)).symm
  have h2 : (s.take m).take k = s.take k := by
    rw [List.take_take, Nat.min_eq_left (by omega)]
  have hk' : (s.take m).get? k = some 47 := by rw [List.get?_take hkm]; exact hk
  rw [h1, h2, drop_eq_cons_of_get? hk']
  rfl

theorem eq_singleton_of_head {l : List Nat} {c : Nat}
    (h1 : l.length = 1) (h2 : l.head? = some c) : l = [c] := by
  cases l with
  | nil => cases h2
  | cons a t =>
    cases t with
    | nil => injection h2 with h2'; rw [h2']
    | cons b u => simp at h1

theorem intern_atom_case {s : List Nat} {slash : Nat} {T U R : List Nat}
    (hslash : s.get? slash = some 47)
    (htop : sliceB s 0 slash = T)
    (hsub : sliceB s (slash + 1) s.length = U)
    (hR : lowerBytes (T ++ 47 :: U) = R) :
    R = lowerBytes s := by
  rw [← hR, ← htop, ← hsub, sliceB_zero]
  have hdrop : sliceB s (slash + 1) s.length = s.drop (slash + 1) := by
    simp [sliceB]
  rw [hdrop]
  conv_rhs => rw [recompose hslash]

theorem intern_star_case {s : List Nat} {slash : Nat} {T R : List Nat}
    (hslash : s.get? slash = some 47)
    (htop : sliceB s 0 slash = T)
    (hlen : (sliceB s (slash + 1) s.length).length = 1)
    (hhead : (sliceB s (slash + 1) s.length).head? = some 42)
    (hR : lowerBytes (T ++ 47 :: [42]) = R) :
    R = lowerBytes s :=
  intern_atom_case hslash htop (eq_singleton_of_head hlen hhead) hR

theorem intern_text_str {s : List Nat} {slash : Nat}
    (hslash : s.get? slash = some 47)
    (htop : sliceB s 0 slash = bytes "text") :
    (constants.intern_text s slash).str = lowerBytes s := by
  unfold constants.intern_text
  split_ifs
  all_goals first
    | rfl
    | exact intern_atom_case hslash htop (by assumption) (by decide)
    | exact intern_star_case hslash htop (by assumption) (by assumption) (by decide)

theorem intern_font_str {s : List Nat} {slash : Nat}
    (hslash : s.get? slash = some 47)
    (htop : sliceB s 0 slash = bytes "font") :
    (constants.intern_font s slash).str = lowerBytes s := by
  unfold constants.intern_font
  split_ifs
  all_goals first
    | rfl
    | exact intern_atom_case hslash htop (by assumption) (by decide)
    | exact intern_star_case hslash htop (by assumption) (by assumption) (by decide)

theorem intern_image_str {s : List Nat} {slash : Nat}
    (hslash : s.get? slash = some 47)
    (htop : sliceB s 0 slash = bytes "image") :
    (constants.intern_image s slash).str = lowerBytes s := by
  unfold constants.intern_image
  split_ifs
  all_goals first
    | rfl
    | exact intern_atom_case hslash htop (by assumption) (by decide)
    | exact intern_star_case hslash htop (by assumption) (by assumption) (by decide)

theorem intern_video_str {s : List Nat} {slash : Nat}
    (hslash : s.get? slash = some 47)
    (htop : sliceB s 0 slash = bytes "video") :
    (constants.intern_video s slash).str = lowerBytes s := by
  unfold constants.intern_video
  split_ifs
  all_goals first
    | rfl
    | exact intern_atom_case hslash htop (by assumption) (by decide)
    | exact intern_star_case hslash htop (by assumption) (by assumption) (by decide)

theorem intern_audio_str {s : List Nat} {slash : Nat}
    (hslash : s.get? slash = some 47)
    (htop : sliceB s 0 slash = bytes "audio") :
    (constants.intern_audio s slash).str = lowerBytes s := by
  unfold constants.intern_audio
  split_ifs
  all_goals first
    | rfl
    | exact intern_atom_case hslash htop (by assumption) (by decide)
    | exact intern_star_case hslash htop (by assumption) (by assumption) (by decide)

theorem intern_application_str {s : List Nat} {slash : Nat}
    (hslash : s.get? slash = some 47)
    (htop : sliceB s 0 slash = bytes "application") :
    (constants.intern_application s slash).str = lowerBytes s := by
  unfold constants.intern_application
  split_ifs
  all_goals first
    | rfl
    | exact intern_atom_case hslash htop (by assumption) (by decide)
    | exact intern_star_case hslash htop (by assumption) (by assumption) (by decide)

/-- Whatever branch `intern_no_params` takes, the resulting backing
string is the whole input lower-cased (the table entries are exactly the
lower-casings of the strings their branch conditions match). -/
theorem intern_no_params_str {s : List Nat} {slash : Nat}
    (hslash : s.get? slash = some 47) :
    (constants.intern_no_params s slash).str = lowerBytes s := by
  unfold constants.intern_no_params
  split_ifs
  all_goals first
    | rfl
    | exact intern_text_str hslash (by assumption)
    | exact intern_font_str hslash (by assumption)
    | exact intern_image_str hslash (by assumption)
    | exact intern_video_str hslash (by assumption)
    | exact intern_audio_str hslash (by assumption)
    | exact intern_application_str hslash (by assumption)

theorem intern_utf8_case {s : List Nat} {slash semi : Nat} {T U R : List Nat}
    (hslash : s.get? slash = some 47)
    (htop : sliceB s 0 slash = T)
    (hsub : sliceB s (slash + 1) semi = U)
    (hUlen : 0 < U.length)
    (hR : lowerBytes (T ++ 47 :: U) ++ bytes "; charset=utf-8" = R) :
    R = lowerBytes (s.take semi) ++ bytes "; charset=utf-8" := by
  rw [← hR, ← htop, ← hsub, sliceB_zero]
  have hlt : slash < semi := by
    have hl := sliceB_length s (slash + 1) semi
    rw [hsub] at hl
    omega
  rw [take_decompose hslash hlt]

/-- When `intern_charset_utf8` hits a table entry, the resulting backing
string is the essence part of the input lower-cased followed by the
canonical `"; charset=utf-8"` tail. -/
theorem intern_charset_utf8_atom {s : List Nat} {slash semi id0 : Nat} {str0 : List Nat}
    (hslash : s.get? slash = some 47)
    (h : constants.intern_charset_utf8 s slash semi = .Atom id0 str0) :
    str0 = lowerBytes (s.take semi) ++ bytes "; charset=utf-8" := by
  unfold constants.intern_charset_utf8 at h
  split_ifs at h
  all_goals first
    | exact absurd h (by simp [constants.dynamic])
    | (injection h with h1 h2
       rw [← h2]
       exact intern_utf8_case hslash (by assumption) (by assumption) (by decide) (by decide))

/-! ### The spec-side transform on the two interned shapes -/

theorem lowerIf_all {P : Nat → Bool} {s : List Nat}
    (h : ∀ j, j < s.length → P j = true) : lowerIf P s = lowerBytes s := by
  apply List.ext_get?
  intro j
  rw [lowerIf_get?]
  cases hs : s.get? j with
  | none => simp only [lowerBytes, List.get?_map, hs, Option.map_none']
  | some c =>
    simp only [lowerBytes, List.get?_map, hs, Option.map_some',
      h j (get?_lt_length hs), if_true]

/-- On a parameter-free result the claimed transform is plain
lower-casing of the whole string. -/
theorem specLower_none (s : List Nat) : specLower s s.length [] = lowerBytes s := by
  unfold specLower
  apply lowerIf_all
  intro j hj
  simp [specLowersAt, hj]

theorem take_append_sliceB {s : List Nat} {m k : Nat} (h : m ≤ k) :
    s.take k = s.take m ++ sliceB s m k := by
  conv_lhs => rw [← List.take_append_drop m (s.take k)]
  rw [List.take_take, Nat.min_eq_left h]
  rfl

theorem sliceB_split {s : List Nat} {a b c : Nat}
    (hab : a ≤ b) (hbc : b ≤ c) (hbs : b ≤ s.length) :
    sliceB s a c = sliceB s a b ++ sliceB s b c := by
  apply List.ext_get?
  intro k
  rw [sliceB_get?]
  by_cases hk : k < b - a
  · rw [List.get?_append (by rw [sliceB_length]; omega)]
    rw [sliceB_get?, if_pos (by omega), if_pos (by omega)]
  · rw [List.get?_append_right (by rw [sliceB_length]; omega)]
    rw [sliceB_length, sliceB_get?]
    have harith : b + (k - (min b s.length - a)) = a + k := by omega
    rw [harith]

theorem sliceB_singleton {s : List Nat} {a b c : Nat}
    (h : s.get? a = some c) (hb : b = a + 1) :
    sliceB s a b = [c] := by
  subst hb
  apply List.ext_get?
  intro k
  rw [sliceB_get?]
  cases k with
  | zero => rw [if_pos (by omega)]; simpa using h
  | succ n => rw [if_neg (by omega)]; simp

/-- Under the `Utf8` shape facts the lower-casing of the input up to the
end of the value is the lower-cased essence followed by the canonical
`"; charset=utf-8"` tail. -/
theorem lowerBytes_take_utf8 {s : List Nat} {semi : Nat}
    (hf : Utf8Facts s semi) (hlen : semi + 15 ≤ s.length) :
    lowerBytes (s.take (semi + 15)) =
      lowerBytes (s.take semi) ++ bytes "; charset=utf-8" := by
  obtain ⟨h59, h32, hcs, h61, hu⟩ := hf
  rw [take_append_sliceB (show semi ≤ semi + 15 by omega)]
  rw [sliceB_split (show semi ≤ semi + 1 by omega)
    (show semi + 1 ≤ semi + 15 by omega) (by omega)]
  rw [sliceB_split (show semi + 1 ≤ semi + 2 by omega)
    (show semi + 2 ≤ semi + 15 by omega) (by omega)]
  rw [sliceB_split (show semi + 2 ≤ semi + 9 by omega)
    (show semi + 9 ≤ semi + 15 by omega) (by omega)]
  rw [sliceB_split (show semi + 9 ≤ semi + 10 by omega)
    (show semi + 10 ≤ semi + 15 by omega) (by omega)]
  rw [sliceB_singleton h59 (by omega), sliceB_singleton h32 (by omega),
    sliceB_singleton h61 (by omega)]
  rw [ciEq_iff_lower] at hcs hu
  simp only [lowerBytes] at hcs hu ⊢
  simp only [List.map_append, List.append_assoc]
  rw [hcs, hu]
  congr 1

/-- On a `Utf8`-shaped result the claimed transform is again plain
lower-casing of the whole string: the essence span, the synthesized name
span `[semi+2, semi+9)` and value span `[semi+10, semi+15)` are
lower-cased by the claim, and every remaining byte (`;`, space, `=`, a
possible trailing `;`) is already caseless. -/
theorem specLower_utf8 {s : List Nat} {semi : Nat}
    (hf : Utf8Facts s semi) (hend : Utf8End s semi) :
    specLower s semi [((semi + 2, semi + 9), (semi + 10, semi + 15))] = lowerBytes s := by
  obtain ⟨h59, h32, hcs, h61, hu⟩ := hf
  apply List.ext_get?
  intro j
  unfold specLower
  rw [lowerIf_get?]
  cases hs : s.get? j with
  | none => simp only [lowerBytes, List.get?_map, hs, Option.map_none']
  | some c =>
    have hj : j < s.length := get?_lt_length hs
    simp only [lowerBytes, List.get?_map, hs, Option.map_some']
    by_cases hcov : specLowersAt s semi [((semi + 2, semi + 9), (semi + 10, semi + 15))] j = true
    · rw [if_pos hcov]
    · rw [if_neg hcov]
      have hlen16 : s.length ≤ semi + 16 := by
        cases hend with
        | inl h => omega
        | inr h => omega
      have h4 : j = semi ∨ j = semi + 1 ∨ j = semi + 9 ∨ j = semi + 15 := by
        by_contra hno
        push_neg at hno
        obtain ⟨hn1, hn2, hn3, hn4⟩ := hno
        have hranges : j < semi ∨ (semi + 2 ≤ j ∧ j < semi + 9) ∨
            (semi + 10 ≤ j ∧ j < semi + 15) := by omega
        apply hcov
        simp only [specLowersAt, List.any_cons, List.any_nil, nameCovers,
          charsetValueCovers, hcs, Bool.or_false, Bool.true_and]
        rcases hranges with h | h | h
        · simp [h]
        · simp [h.1, h.2]
        · simp [h.1, h.2]
      rcases h4 with h | h | h | h
      · subst h; rw [h59] at hs; injection hs with hc; subst hc; decide
      · subst h; rw [h32] at hs; injection hs with hc; subst hc; decide
      · subst h; rw [h61] at hs; injection hs with hc; subst hc; decide
      · cases hend with
        | inl hl => omega
        | inr hr =>
          subst h
          rw [hr.2] at hs
          injection hs with hc
          subst hc
          decide

/-! ### Parse-level characterization -/

/-- The byte index where the parameter region of the raw input starts
(the recorded `;`), or the fallback when the shape records none. -/
def paramStartOr (fallback : Nat) : ParamSource → Nat
  | .None => fallback
  | .Utf8 j => j
  | .One j _ => j
  | .Two j _ _ => j
  | .Custom j _ => j

/-- The name/value index pairs recorded by a shape (the `Utf8` shape
stores them implicitly at fixed offsets from its `;`). -/
def pairsOf : ParamSource → List IndexedPair
  | .None => []
  | .Utf8 j => [((j + 2, j + 9), (j + 10, j + 15))]
  | .One _ a => [a]
  | .Two _ a b => [a, b]
  | .Custom _ ps => ps

/-- The claim's expected display string for input `s` with shape `ps`:
`s` with the essence span, the parameter names, and the charset values
ASCII-lower-cased, everything else byte-for-byte. -/
def specTransform (s : List Nat) (ps : ParamSource) : List Nat :=
  specLower s (paramStartOr s.length ps) (pairsOf ps)

theorem orElseO_none (x : Option Nat) : orElseO x none = x := by
  cases x <;> rfl

theorem lastPlusIn_semi {s : List Nat} {start lo st : Nat}
    (h59 : s.get? st = some 59) (hlo : ¬ st < lo) :
    lastPlusIn s start lo (st + 1) = lastPlusIn s start lo st := by
  have hnot : ¬(s.get? st = some 43 ∧ start < st) := by
    rintro ⟨hx, -⟩
    rw [h59] at hx
    injection hx with hx'
    omega
  show (if st < lo then none
    else if s.get? st = some 43 ∧ start < st then some st
    else lastPlusIn s start lo st) = lastPlusIn s start lo st
  rw [if_neg hlo, if_neg hnot]

/-- `intern_charset_utf8` only produces `Dynamic` through `dynamic`. -/
theorem intern_charset_utf8_dynamic {s : List Nat} {slash semi : Nat} {str0 : List Nat}
    (h : constants.intern_charset_utf8 s slash semi = .Dynamic str0) :
    str0 = lowerBytes s := by
  unfold constants.intern_charset_utf8 at h
  split_ifs at h
  all_goals first
    | exact absurd h (by simp [constants.TEXT_PLAIN_UTF_8, constants.TEXT_HTML_UTF_8,
        constants.TEXT_CSS_UTF_8, constants.TEXT_CSV_UTF_8,
        constants.TEXT_TAB_SEPARATED_VALUES_UTF_8, constants.APPLICATION_JAVASCRIPT_UTF_8,
        Source.str])
    | (injection h with h'; rw [h'])

/-- Master characterization of a successful `MimeParse.parse`: the
backing string is the claimed transform of the input (except that a
`Utf8`-interned result drops a trailing `;`), the recorded `/` really
holds a `/`, the recorded `+` is the last `+` strictly inside the
subtype region, and the recorded parameter shape satisfies the
parameter-region invariant. -/
theorem parse_ok_master {s : List Nat} {cr : Bool} {m : Mime}
    (h : MimeParse.parse s cr = .ok m) :
    (m.sourceStr = specTransform s m.params ∨
      (∃ semi, m.params = .Utf8 semi ∧ s.get? (semi + 15) = some 59 ∧
        s.length = semi + 16 ∧ m.sourceStr ++ [59] = specTransform s m.params)) ∧
    s.get? m.slash = some 47 ∧ 0 < m.slash ∧
    m.plus = lastPlusIn s (m.slash + 1) (m.slash + 1) (paramStartOr s.length m.params) ∧
    (∀ j, m.semicolon = some j → ParamsFinal s j m.params) := by
  unfold MimeParse.parse at h
  by_cases hlong : s.length > 65535
  · rw [if_pos hlong] at h
    cases h
  rw [if_neg hlong] at h
  by_cases hstar : s = bytes "*/*"
  · -- the "*/*" fast path
    rw [if_pos hstar] at h
    by_cases hcr : cr = true
    · rw [if_pos hcr] at h
      injection h with h'
      subst h'
      subst hstar
      refine ⟨Or.inl (by decide), by decide, by decide, by decide, ?_⟩
      intro j hj
      cases hj
    · rw [if_neg hcr] at h
      cases h
  rw [if_neg hstar] at h
  cases ht : MimeParse.toplevel s 0 with
  | error e => rw [ht] at h; cases h
  | ok v =>
    obtain ⟨slash, rest⟩ := v
    rw [ht] at h
    simp only [] at h
    obtain ⟨_, hslash, hpos, hrest, hslen⟩ :=
      toplevel_ok (List.drop_zero s).symm ht
    cases hsub : MimeParse.sublevel cr rest (slash + 1) (slash + 1) none with
    | error e => rw [hsub] at h; cases h
    | ok res =>
      rw [hsub] at h
      cases res with
      | inl plus =>
        simp only [] at h
        injection h with h'
        subst h'
        obtain ⟨hA, _⟩ := sublevel_ok hrest hsub
        refine ⟨Or.inl ?_, hslash, hpos, ?_, ?_⟩
        · show (constants.intern s slash .None).str = specTransform s .None
          show (constants.intern_no_params s slash).str = specTransform s .None
          rw [intern_no_params_str hslash]
          show lowerBytes s = specLower s s.length []
          rw [specLower_none]
        · show plus = lastPlusIn s (slash + 1) (slash + 1) s.length
          rw [hA plus rfl, orElseO_none]
        · intro j hj
          cases hj
      | inr trip =>
        obtain ⟨plus, st, rest2⟩ := trip
        simp only [] at h
        obtain ⟨_, hB⟩ := sublevel_ok hrest hsub
        obtain ⟨hplus, h59, hrest2, hist, hstlen⟩ := hB plus st rest2 rfl
        cases hp : MimeParse.params_from_str s rest2 st with
        | error e => rw [hp] at h; cases h
        | ok params =>
          rw [hp] at h
          simp only [] at h
          injection h with h'
          subst h'
          unfold MimeParse.params_from_str at hp
          have hinv0 : ParamsInv s st (st + 1) ParamSource.None := rfl
          have hfin : ParamsFinal s st params :=
            paramsLoop_ok h59 hrest2 rfl (by omega) hinv0 hp
          have hplus' : plus = lastPlusIn s (slash + 1) (slash + 1) st := by
            rw [hplus, orElseO_none]
          cases params with
          | None =>
            have hle : s.length ≤ st + 1 := hfin
            refine ⟨Or.inl ?_, hslash, hpos, ?_, ?_⟩
            · show (constants.intern s slash .None).str = specTransform s .None
              show (constants.intern_no_params s slash).str = specTransform s .None
              rw [intern_no_params_str hslash]
              show lowerBytes s = specLower s s.length []
              rw [specLower_none]
            · show plus = lastPlusIn s (slash + 1) (slash + 1) s.length
              have hlen1 : s.length = st + 1 := by omega
              rw [hlen1, lastPlusIn_semi h59 (by omega), hplus']
            · intro j hj
              cases hj
          | Utf8 semi =>
            obtain ⟨hsemi, hfacts, hend⟩ := hfin
            subst hsemi
            have h15 : semi + 15 ≤ s.length := by
              cases hend with
              | inl hx => omega
              | inr hx => omega
            have hspec : specTransform s (.Utf8 semi) = lowerBytes s := by
              show specLower s semi [((semi + 2, semi + 9), (semi + 10, semi + 15))]
                = lowerBytes s
              exact specLower_utf8 hfacts hend
            refine ⟨?_, hslash, hpos, hplus', ?_⟩
            · show (constants.intern_charset_utf8 s slash semi).str =
                  specTransform s (.Utf8 semi) ∨
                  (∃ j, (ParamSource.Utf8 semi : ParamSource) = .Utf8 j ∧
                    s.get? (j + 15) = some 59 ∧ s.length = j + 16 ∧
                    (constants.intern_charset_utf8 s slash semi).str ++ [59] =
                      specTransform s (.Utf8 semi))
              cases hi : constants.intern_charset_utf8 s slash semi with
              | Dynamic str0 =>
                refine Or.inl ?_
                show str0 = specTransform s (.Utf8 semi)
                rw [intern_charset_utf8_dynamic hi, hspec]
              | Atom id0 str0 =>
                have hstr : str0 = lowerBytes (s.take (semi + 15)) := by
                  rw [intern_charset_utf8_atom hslash hi,
                    lowerBytes_take_utf8 hfacts h15]
                cases hend with
                | inl hx =>
                  refine Or.inl ?_
                  show str0 = specTransform s (.Utf8 semi)
                  rw [hstr, hspec, ← hx, List.take_length]
                | inr hx =>
                  refine Or.inr ⟨semi, rfl, hx.2, hx.1, ?_⟩
                  show str0 ++ [59] = specTransform s (.Utf8 semi)
                  have hsplit : s = s.take (semi + 15) ++ [59] := by
                    conv_lhs => rw [← List.take_append_drop (semi + 15) s]
                    rw [drop_eq_cons_of_get? hx.2]
                    have hnil : s.drop (semi + 16) = [] := by
                      apply List.drop_eq_nil_of_le
                      omega
                    rw [hnil]
                  rw [hstr, hspec]
                  conv_rhs => rw [hsplit]
                  simp only [lowerBytes, List.map_append]
                  rfl
            · intro j hj
              injection hj with hj'
              subst hj'
              exact ⟨rfl, hfacts, hend⟩
          | One semi a =>
            obtain ⟨hsemi, hcond⟩ := hfin
            subst hsemi
            refine ⟨Or.inl ?_, hslash, hpos, hplus', ?_⟩
            · show lower_ascii_with_params s semi [a] = specTransform s (.One semi a)
              rw [lower_ascii_eq_spec]
              rfl
            · intro j hj
              injection hj with hj'
              subst hj'
              exact ⟨rfl, hcond⟩
          | Two semi a b =>
            have hsemi : semi = st := hfin
            subst hsemi
            refine ⟨Or.inl ?_, hslash, hpos, hplus', ?_⟩
            · show lower_ascii_with_params s semi [a, b] = specTransform s (.Two semi a b)
              rw [lower_ascii_eq_spec]
              rfl
            · intro j hj
              injection hj
          | Custom semi ps =>
            obtain ⟨hsemi, hlen3⟩ := hfin
            subst hsemi
            refine ⟨Or.inl ?_, hslash, hpos, hplus', ?_⟩
            · show lower_ascii_with_params s semi ps = specTransform s (.Custom semi ps)
              rw [lower_ascii_eq_spec]
              rfl
            · intro j hj
              injection hj with hj'
              subst hj'
              exact ⟨rfl, hlen3⟩

/-! ### `InvalidRange` is produced only by the `*/*` gate -/

theorem toplevel_not_range : ∀ (rest : List Nat) (i : Nat),
    MimeParse.toplevel rest i ≠ .error .InvalidRange := by
  intro rest
  induction rest with
  | nil => intro i h; injection h with h'; cases h'
  | cons c r ih =>
    intro i h
    rw [MimeParse.toplevel.eq_def] at h
    simp only [] at h
    split_ifs at h
    all_goals first
      | exact ih (i + 1) h
      | cases h
      | (injection h with h'; cases h')

theorem starNext_not_range : ∀ (rest : List Nat) (i : Nat) (plus : Option Nat),
    MimeParse.starNext rest i plus ≠ .error .InvalidRange := by
  intro rest i plus h
  cases rest with
  | nil => cases h
  | cons c2 r2 =>
    rw [MimeParse.starNext.eq_def] at h
    simp only [] at h
    split_ifs at h
    all_goals first
      | cases h
      | (injection h with h'; cases h')

theorem sublevel_not_range (cr : Bool) : ∀ (rest : List Nat) (i start : Nat)
    (plus : Option Nat), MimeParse.sublevel cr rest i start plus ≠ .error .InvalidRange := by
  intro rest
  induction rest with
  | nil => intro i start plus h; cases h
  | cons c r ih =>
    intro i start plus h
    rw [MimeParse.sublevel.eq_def] at h
    simp only [] at h
    split_ifs at h
    all_goals first
      | exact ih _ _ _ h
      | exact starNext_not_range _ _ _ h
      | cases h
      | (injection h with h'; cases h')

theorem nameLoop_not_range : ∀ (rest : List Nat) (i start : Nat),
    MimeParse.nameLoop rest i start ≠ .error .InvalidRange := by
  intro rest
  induction rest with
  | nil => intro i start h; injection h with h'; cases h'
  | cons c r ih =>
    intro i start h
    rw [MimeParse.nameLoop.eq_def] at h
    simp only [] at h
    split_ifs at h
    all_goals first
      | exact ih _ _ h
      | cases h
      | (injection h with h'; cases h')

theorem valueQuoted_not_range : ∀ (rest : List Nat) (i start : Nat),
    MimeParse.valueQuoted rest i start ≠ .error .InvalidRange := by
  intro rest i start
  induction rest, i, start using MimeParse.valueQuoted.induct with
  | case1 i start => intro h; injection h with h'; cases h'
  | case2 c rest i start h1 =>
    intro h
    rw [MimeParse.valueQuoted.eq_def] at h
    simp only [] at h
    rw [if_pos h1] at h
    cases h
  | case3 i start h1 =>
    intro h
    rw [MimeParse.valueQuoted.eq_def] at h
    simp only [] at h
    rw [if_neg h1, if_pos trivial] at h
    injection h with h'; cases h'
  | case4 i start c2 rest2 hrq h1 ih =>
    intro h
    rw [MimeParse.valueQuoted.eq_def] at h
    simp only [] at h
    rw [if_neg h1, if_pos trivial, if_pos hrq] at h
    exact ih h
  | case5 i start c2 rest2 hrq h1 =>
    intro h
    rw [MimeParse.valueQuoted.eq_def] at h
    simp only [] at h
    rw [if_neg h1, if_pos trivial, if_neg hrq] at h
    injection h with h'; cases h'
  | case6 c rest i start h1 h2 h3 ih =>
    intro h
    rw [MimeParse.valueQuoted.eq_def] at h
    simp only [] at h
    rw [if_neg h1, if_neg h2, if_pos h3] at h
    exact ih h
  | case7 c rest i start h1 h2 h3 =>
    intro h
    rw [MimeParse.valueQuoted.eq_def] at h
    simp only [] at h
    rw [if_neg h1, if_neg h2, if_neg h3] at h
    injection h with h'; cases h'

theorem wsLoop_not_range (slen : Nat) : ∀ (rest : List Nat) (i : Nat),
    MimeParse.wsLoop slen rest i ≠ .error .InvalidRange := by
  intro rest
  induction rest with
  | nil => intro i h; cases h
  | cons c r ih =>
    intro i h
    rw [MimeParse.wsLoop.eq_def] at h
    simp only [] at h
    split_ifs at h
    all_goals first
      | exact ih _ h
      | cases h
      | (injection h with h'; cases h')

theorem valueScan_not_range (slen : Nat) : ∀ (rest : List Nat) (i start : Nat),
    MimeParse.valueScan slen rest i start ≠ .error .InvalidRange := by
  intro rest
  induction rest with
  | nil => intro i start h; cases h
  | cons c r ih =>
    intro i start h
    rw [MimeParse.valueScan.eq_def] at h
    simp only [] at h
    split_ifs at h
    all_goals first
      | exact ih _ _ h
      | cases h
      | (injection h with h'; cases h')
      | skip
    all_goals cases hv : MimeParse.valueQuoted r (i + 1) i with
      | error e =>
        rw [hv] at h
        simp only [] at h
        injection h with h'
        subst h'
        exact valueQuoted_not_range _ _ _ hv
      | ok val =>
        obtain ⟨v, i1, rest1⟩ := val
        rw [hv] at h
        simp only [] at h
        cases hw : MimeParse.wsLoop slen rest1 i1 with
        | error e =>
          rw [hw] at h
          simp only [] at h
          injection h with h'
          subst h'
          exact wsLoop_not_range _ _ _ hw
        | ok w =>
          obtain ⟨start2, i2, rest2⟩ := w
          rw [hw] at h
          simp only [] at h
          cases h

theorem paramsLoop_not_range (s : List Nat) (semi : Nat) :
    ∀ (fuel : Nat) (rest : List Nat) (i start : Nat) (params : ParamSource),
    MimeParse.paramsLoop s semi fuel rest i start params ≠ .error .InvalidRange := by
  intro fuel rest i start params
  induction fuel, rest, i, start, params using MimeParse.paramsLoop.induct s semi with
  | case1 rest i start params hlt =>
    intro h
    rw [MimeParse.paramsLoop.eq_def] at h
    simp only [] at h
    rw [if_pos hlt] at h
    injection h with h'; cases h'
  | case2 rest i start params hlt fuel' e hname =>
    intro h
    rw [MimeParse.paramsLoop.eq_def] at h
    simp only [] at h
    rw [if_pos hlt, hname] at h
    simp only [] at h
    injection h with h'
    subst h'
    exact nameLoop_not_range _ _ _ hname
  | case3 rest i start params hlt fuel' nm nstart1 nrest1 hname e hvs =>
    intro h
    rw [MimeParse.paramsLoop.eq_def] at h
    simp only [] at h
    rw [if_pos hlt, hname] at h
    simp only [] at h
    rw [hvs] at h
    simp only [] at h
    injection h with h'
    subst h'
    exact valueScan_not_range _ _ _ _ hvs
  | case4 rest i start params hlt fuel' nm nstart1 nrest1 hname value start2 i2 rest2 hvs ih =>
    intro h
    rw [MimeParse.paramsLoop.eq_def] at h
    simp only [] at h
    rw [if_pos hlt, hname] at h
    simp only [] at h
    rw [hvs] at h
    simp only [] at h
    exact ih h
  | case5 fuel rest i start params hge =>
    intro h
    rw [MimeParse.paramsLoop.eq_def] at h
    simp only [] at h
    rw [if_neg hge] at h
    cases h

/-- Outside the `*/*` gate, `parse` never produces `InvalidRange`. -/
theorem parse_error_range {s : List Nat} {cr : Bool}
    (h : MimeParse.parse s cr = .error .InvalidRange) :
    s = bytes "*/*" ∧ cr = false := by
  unfold MimeParse.parse at h
  by_cases hlong : s.length > 65535
  · rw [if_pos hlong] at h
    injection h with h'
    cases h'
  rw [if_neg hlong] at h
  by_cases hstar : s = bytes "*/*"
  · rw [if_pos hstar] at h
    by_cases hcr : cr = true
    · rw [if_pos hcr] at h
      cases h
    · refine ⟨hstar, ?_⟩
      cases cr
      · rfl
      · exact absurd rfl hcr
  · rw [if_neg hstar] at h
    exfalso
    cases ht : MimeParse.toplevel s 0 with
    | error e =>
      rw [ht] at h
      simp only [] at h
      injection h with h'
      subst h'
      exact toplevel_not_range _ _ ht
    | ok v =>
      obtain ⟨slash, rest⟩ := v
      rw [ht] at h
      simp only [] at h
      cases hsub : MimeParse.sublevel cr rest (slash + 1) (slash + 1) none with
      | error e =>
        rw [hsub] at h
        simp only [] at h
        injection h with h'
        subst h'
        exact sublevel_not_range _ _ _ _ _ hsub
      | ok res =>
        rw [hsub] at h
        cases res with
        | inl plus => simp only [] at h; cases h
        | inr trip =>
          obtain ⟨plus, st, rest2⟩ := trip
          simp only [] at h
          cases hp : MimeParse.params_from_str s rest2 st with
          | error e =>
            rw [hp] at h
            simp only [] at h
            injection h with h'
            subst h'
            unfold MimeParse.params_from_str at hp
            exact paramsLoop_not_range _ _ _ _ _ _ _ hp
          | ok params =>
            rw [hp] at h
            simp only [] at h
            cases h

/-- A token-only prefix followed by `/` scans to the slash. -/
theorem toplevel_tokens : ∀ (t : List Nat), (∀ c ∈ t, is_token c = true) →
    ∀ (u : List Nat) (i : Nat), 0 < i ∨ t ≠ [] →
    MimeParse.toplevel (t ++ 47 :: u) i = .ok (i + t.length, u) := by
  intro t
  induction t with
  | nil =>
    intro _ u i hpos
    have hi : 0 < i := by
      cases hpos with
      | inl h => exact h
      | inr h => exact absurd rfl h
    show MimeParse.toplevel (47 :: u) i = .ok (i + 0, u)
    rw [MimeParse.toplevel.eq_def]
    simp only []
    rw [if_neg (by decide), if_pos (by simp [hi]), Nat.add_zero]
  | cons c t' ih =>
    intro ht u i _
    have htok : is_token c = true := ht c (by simp)
    show MimeParse.toplevel (c :: (t' ++ 47 :: u)) i = _
    rw [MimeParse.toplevel.eq_def]
    simp only []
    rw [if_pos htok]
    rw [ih (fun x hx => ht x (by simp [hx])) u (i + 1) (Or.inl (by omega))]
    have harith : i + 1 + t'.length = i + (c :: t').length := by
      simp only [List.length_cons]
      omega
    rw [harith]

/-- In exact-type mode a `*` at the subtype start is an `InvalidToken`. -/
theorem sublevel_star_rejected (rest : List Nat) (i : Nat) :
    MimeParse.sublevel false (42 :: rest) i i none = .error (.InvalidToken i 42) := by
  rw [MimeParse.sublevel.eq_def]
  simp only []
  rw [if_neg (by rintro ⟨h43, -⟩; omega)]
  rw [if_neg (by rintro ⟨-, hlt⟩; omega)]
  rw [if_neg (by rintro ⟨-, -, hcr⟩; cases hcr)]
  rw [if_neg (by decide)]

theorem sliceB_append_left {x y : List Nat} {a b : Nat} (h : b ≤ x.length) :
    sliceB (x ++ y) a b = sliceB x a b := by
  unfold sliceB
  rw [List.take_append_eq_append_take]
  rw [show b - x.length = 0 from by omega]
  rw [List.take_zero, List.append_nil]

/-- C3 counterexample: on `text/plain; charset=utf-8;` (trailing `;`
after the canonical utf-8 parameter) the parse succeeds and interns the
`text/plain; charset=utf-8` constant, dropping the trailing `;`; the
claimed output — the input with the listed spans lower-cased, everything
else byte-for-byte — keeps that byte, so `to_string()` is not
byte-identical to it. -/
theorem C3_roundtrip_counterexample :
    MimeParse.parse (bytes "text/plain; charset=utf-8;") true = .ok constants.TEXT_PLAIN_UTF_8
    ∧ constants.TEXT_PLAIN_UTF_8.displayStr = bytes "text/plain; charset=utf-8"
    ∧ specTransform (bytes "text/plain; charset=utf-8;") constants.TEXT_PLAIN_UTF_8.params =
        bytes "text/plain; charset=utf-8;"
    ∧ constants.TEXT_PLAIN_UTF_8.displayStr ≠ bytes "text/plain; charset=utf-8;" := by
  refine ⟨by decide, by decide, by decide, by decide⟩

/-- C3 amended: for every successful parse the displayed string is the
input with the essence span, the parameter names and the charset
parameter values ASCII-lower-cased and everything else byte-for-byte —
except that a result interned on the `Utf8` shape drops a trailing `;`
(the input then is the claimed transform with one final `;` appended). -/
theorem C3_roundtrip_amended {s : List Nat} {cr : Bool} {m : Mime}
    (h : MimeParse.parse s cr = .ok m) :
    m.displayStr = specTransform s m.params ∨
      (∃ semi, m.params = .Utf8 semi ∧ s.get? (semi + 15) = some 59 ∧
        s.length = semi + 16 ∧ m.displayStr ++ [59] = specTransform s m.params) :=
  (parse_ok_master h).1

theorem C3_roundtrip_amended_witness :
    constants.TEXT_PLAIN_UTF_8.displayStr =
        specTransform (bytes "text/plain; charset=utf-8") constants.TEXT_PLAIN_UTF_8.params ∨
      (∃ semi, constants.TEXT_PLAIN_UTF_8.params = .Utf8 semi ∧
        (bytes "text/plain; charset=utf-8").get? (semi + 15) = some 59 ∧
        (bytes "text/plain; charset=utf-8").length = semi + 16 ∧
        constants.TEXT_PLAIN_UTF_8.displayStr ++ [59] =
          specTransform (bytes "text/plain; charset=utf-8") constants.TEXT_PLAIN_UTF_8.params) :=
  @C3_roundtrip_amended (bytes "text/plain; charset=utf-8") true
    constants.TEXT_PLAIN_UTF_8 (by decide)

/-- C4 amended: the recorded `plus` offset of every successful parse is
the **last** `+` strictly after the subtype start and before the
parameter region (not the first, as claimed): the scanner overwrites the
marker on every later `+`. -/
theorem C4_plus_amended {s : List Nat} {cr : Bool} {m : Mime}
    (h : MimeParse.parse s cr = .ok m) :
    m.plus = lastPlusIn s (m.slash + 1) (m.slash + 1) (paramStartOr s.length m.params) :=
  (parse_ok_master h).2.2.2.1

theorem C4_plus_amended_witness :
    (⟨.Dynamic (bytes "a/b+c+d"), 1, some 5, .None⟩ : Mime).plus =
      lastPlusIn (bytes "a/b+c+d") (1 + 1) (1 + 1)
        (paramStartOr (bytes "a/b+c+d").length .None) :=
  @C4_plus_amended (bytes "a/b+c+d") true
    ⟨.Dynamic (bytes "a/b+c+d"), 1, some 5, .None⟩ (by decide)

/-- C5 amended: `subtype()` always extends to the parameter-list start
(the recorded `;`) when parameters are present and to the end of the
backing string otherwise; the suffix marker never terminates it, and the
bytes are the lower-casing of the corresponding input span. -/
theorem C5_subtype_amended {s : List Nat} {cr : Bool} {m : Mime}
    (h : MimeParse.parse s cr = .ok m) :
    m.semicolonOrEnd = paramStartOr s.length m.params ∧
    m.subtype = lowerBytes (sliceB s (m.slash + 1) (paramStartOr s.length m.params)) := by
  obtain ⟨hsrc, hslash, hpos, hplus, hsem⟩ := parse_ok_master h
  have hcov : ∀ j, m.slash + 1 ≤ j → j < paramStartOr s.length m.params →
      specLowersAt s (paramStartOr s.length m.params) (pairsOf m.params) j = true := by
    intro j _ hj
    simp [specLowersAt, hj]
  constructor
  · cases hp : m.params with
    | None =>
      have hsstr : m.sourceStr.length = s.length := by
        cases hsrc with
        | inl hL =>
          rw [hL, hp]
          show (specLower s (paramStartOr s.length .None) (pairsOf .None)).length = s.length
          exact lowerIf_length _ _
        | inr hR =>
          obtain ⟨semi, hps, -, -, -⟩ := hR
          rw [hp] at hps
          cases hps
      simp [Mime.semicolonOrEnd, Mime.semicolon, hp, paramStartOr, hsstr]
    | Utf8 j => simp [Mime.semicolonOrEnd, Mime.semicolon, hp, paramStartOr]
    | One j a => simp [Mime.semicolonOrEnd, Mime.semicolon, hp, paramStartOr]
    | Two j a b => simp [Mime.semicolonOrEnd, Mime.semicolon, hp, paramStartOr]
    | Custom j l => simp [Mime.semicolonOrEnd, Mime.semicolon, hp, paramStartOr]
  · unfold Mime.subtype
    cases hsrc with
    | inl hL =>
      have hsemiOr : m.semicolonOrEnd = paramStartOr s.length m.params := by
        cases hp : m.params with
        | None =>
          have hsstr : m.sourceStr.length = s.length := by
            rw [hL, hp]
            show (specLower s (paramStartOr s.length .None) (pairsOf .None)).length = s.length
            exact lowerIf_length _ _
          simp [Mime.semicolonOrEnd, Mime.semicolon, hp, paramStartOr, hsstr]
        | Utf8 j => simp [Mime.semicolonOrEnd, Mime.semicolon, hp, paramStartOr]
        | One j a => simp [Mime.semicolonOrEnd, Mime.semicolon, hp, paramStartOr]
        | Two j a b => simp [Mime.semicolonOrEnd, Mime.semicolon, hp, paramStartOr]
        | Custom j l => simp [Mime.semicolonOrEnd, Mime.semicolon, hp, paramStartOr]
      rw [hsemiOr, hL]
      exact sliceB_lowerIf_covered hcov
    | inr hR =>
      obtain ⟨semi, hps, h59x, hlen16, happ⟩ := hR
      have hspeclen : (specTransform s m.params).length = s.length := by
        show (lowerIf _ s).length = s.length
        exact lowerIf_length _ _
      have hsl : m.sourceStr.length = semi + 15 := by
        have := congrArg List.length happ
        simp only [List.length_append, List.length_cons, List.length_nil] at this
        omega
      have hP : paramStartOr s.length m.params = semi := by rw [hps]; rfl
      have hsemiOr : m.semicolonOrEnd = semi := by
        simp [Mime.semicolonOrEnd, Mime.semicolon, hps]
      rw [hsemiOr, hP]
      rw [show sliceB m.sourceStr (m.slash + 1) semi =
          sliceB (m.sourceStr ++ [59]) (m.slash + 1) semi from
        (sliceB_append_left (by omega)).symm]
      rw [happ]
      exact sliceB_lowerIf_covered (fun j hj1 hj2 => hcov j hj1 (by rw [hP]; exact hj2))

theorem C5_subtype_amended_witness :
    constants.IMAGE_SVG.semicolonOrEnd =
      paramStartOr (bytes "image/svg+xml").length constants.IMAGE_SVG.params ∧
    constants.IMAGE_SVG.subtype = lowerBytes (sliceB (bytes "image/svg+xml")
      (constants.IMAGE_SVG.slash + 1)
      (paramStartOr (bytes "image/svg+xml").length constants.IMAGE_SVG.params)) :=
  @C5_subtype_amended (bytes "image/svg+xml") true constants.IMAGE_SVG (by decide)

/-- C7 amended: `eq_str` falls back to re-parse plus the value-to-value
relation only when no byte-comparison fast path applies: always when the
shape carries parameters other than `Utf8`, and for `Utf8` only when the
lengths differ (on equal lengths it short-circuits to a case-insensitive
byte comparison, see the counterexample); whenever the fallback re-parse
fails the comparison is `false` — `eq_str` is total and never an error. -/
theorem C7_eq_str_amended (m : Mime) (s : List Nat) :
    ((∀ semi, m.params ≠ .Utf8 semi) → m.has_params = true →
       MimeParse.eq_str m s =
        (match MimeParse.parse s true with
         | .ok other => MimeParse.mimeEq m other
         | .error _ => false))
    ∧ (∀ semi, m.params = .Utf8 semi → m.sourceStr.length ≠ s.length →
       MimeParse.eq_str m s =
        (match MimeParse.parse s true with
         | .ok other => MimeParse.mimeEq m other
         | .error _ => false))
    ∧ (∀ e, MimeParse.parse s true = .error e → m.has_params = true →
        (∀ semi, m.params = .Utf8 semi → m.sourceStr.length ≠ s.length) →
        MimeParse.eq_str m s = false) := by
  refine ⟨?_, ?_, ?_⟩
  · intro hne hp
    unfold MimeParse.eq_str
    cases hmp : m.params with
    | Utf8 j => exact absurd hmp (hne j)
    | None =>
      exfalso
      have hn : m.semicolon = none := by unfold Mime.semicolon; rw [hmp]
      rw [Mime.has_params, hn] at hp
      cases hp
    | One j a =>
      simp only []
      rw [if_pos hp]
    | Two j a b =>
      simp only []
      rw [if_pos hp]
    | Custom j l =>
      simp only []
      rw [if_pos hp]
  · intro semi hmp hlen
    unfold MimeParse.eq_str
    rw [hmp]
    simp only []
    rw [if_neg hlen]
  · intro e he hp hutf
    unfold MimeParse.eq_str
    cases hmp : m.params with
    | Utf8 j =>
      simp only []
      rw [if_neg (hutf j hmp), he]
    | None =>
      exfalso
      have hn : m.semicolon = none := by unfold Mime.semicolon; rw [hmp]
      rw [Mime.has_params, hn] at hp
      cases hp
    | One j a =>
      simp only []
      rw [if_pos hp, he]
    | Two j a b =>
      simp only []
      rw [if_pos hp, he]
    | Custom j l =>
      simp only []
      rw [if_pos hp, he]

theorem C7_eq_str_amended_witness :
    MimeParse.eq_str constants.TEXT_PLAIN_UTF_8 (bytes "a") =
      (match MimeParse.parse (bytes "a") true with
       | .ok other => MimeParse.mimeEq constants.TEXT_PLAIN_UTF_8 other
       | .error _ => false) :=
  (C7_eq_str_amended constants.TEXT_PLAIN_UTF_8 (bytes "a")).2.1 10 rfl (by decide)

/-- C9 amended: the table shape of a successful parse is `Utf8` exactly
for a single parameter region of the shape `"; " ++ charset-ci ++ "=" ++
utf-8-ci` (with optionally one trailing `;`): the name must start two
bytes after the recorded `;` (one space), which the claim omits; a
recorded `One` pair never satisfies the full promotion condition. -/
theorem C9_utf8_shape_amended {s : List Nat} {cr : Bool} {m : Mime}
    (h : MimeParse.parse s cr = .ok m) :
    (∀ semi, m.params = .Utf8 semi →
      s.get? semi = some 59 ∧ s.get? (semi + 1) = some 32 ∧
      ciEq (sliceB s (semi + 2) (semi + 9)) (bytes "charset") = true ∧
      s.get? (semi + 9) = some 61 ∧
      ciEq (sliceB s (semi + 10) (semi + 15)) (bytes "utf-8") = true ∧
      (s.length = semi + 15 ∨ (s.length = semi + 16 ∧ s.get? (semi + 15) = some 59)))
    ∧ (∀ semi nv, m.params = .One semi nv →
        ¬(semi + 2 = nv.1.1 ∧ ciEq (sliceB s nv.1.1 nv.1.2) (bytes "charset") = true ∧
          ciEq (sliceB s nv.2.1 nv.2.2) (bytes "utf-8") = true)) := by
  obtain ⟨-, -, -, -, hsem⟩ := parse_ok_master h
  constructor
  · intro semi hp
    have hsc : m.semicolon = some semi := by
      unfold Mime.semicolon
      rw [hp]
    have hfin := hsem semi hsc
    rw [hp] at hfin
    obtain ⟨-, hfacts, hend⟩ := hfin
    obtain ⟨a1, a2, a3, a4, a5⟩ := hfacts
    exact ⟨a1, a2, a3, a4, a5, hend⟩
  · intro semi nv hp
    have hsc : m.semicolon = some semi := by
      unfold Mime.semicolon
      rw [hp]
    have hfin := hsem semi hsc
    rw [hp] at hfin
    exact hfin.2

theorem C9_utf8_shape_amended_witness :
    (bytes "text/plain; charset=utf-8").get? 10 = some 59 ∧
    (bytes "text/plain; charset=utf-8").get? (10 + 1) = some 32 ∧
    ciEq (sliceB (bytes "text/plain; charset=utf-8") (10 + 2) (10 + 9))
      (bytes "charset") = true ∧
    (bytes "text/plain; charset=utf-8").get? (10 + 9) = some 61 ∧
    ciEq (sliceB (bytes "text/plain; charset=utf-8") (10 + 10) (10 + 15))
      (bytes "utf-8") = true ∧
    ((bytes "text/plain; charset=utf-8").length = 10 + 15 ∨
      ((bytes "text/plain; charset=utf-8").length = 10 + 16 ∧
        (bytes "text/plain; charset=utf-8").get? (10 + 15) = some 59)) :=
  (@C9_utf8_shape_amended (bytes "text/plain; charset=utf-8") true
    constants.TEXT_PLAIN_UTF_8 (by decide)).1 10 rfl

/-- C10: `InvalidRange` is produced only by the `*/*` gate — a parse that
fails with it was given exactly the string `*/*` with ranges forbidden;
any token-named type with a `*` subtype parsed in exact-type mode is
instead rejected as `InvalidToken` carrying the position and byte of the
`*`. -/
theorem C10_invalid_range_only_star :
    (∀ (s : List Nat) (cr : Bool), MimeParse.parse s cr = .error .InvalidRange →
      s = bytes "*/*" ∧ cr = false)
    ∧ (∀ (t rest : List Nat), (∀ c ∈ t, is_token c = true) → t ≠ [] →
        (t ++ 47 :: 42 :: rest).length ≤ 65535 →
        MimeParse.parse (t ++ 47 :: 42 :: rest) false =
          .error (.InvalidToken (t.length + 1) 42)) := by
  constructor
  · intro s cr h
    exact parse_error_range h
  · intro t rest ht hne hlen
    have hb : bytes "*/*" = [42, 47, 42] := by decide
    have hstar : ¬(t ++ 47 :: 42 :: rest = bytes "*/*") := by
      cases t with
      | nil => exact absurd rfl hne
      | cons c t' =>
        intro heq
        rw [hb] at heq
        injection heq with h1 _
        have h2 : is_token c = true := ht c (by simp)
        rw [h1] at h2
        exact absurd h2 (by decide)
    unfold MimeParse.parse
    rw [if_neg (by omega), if_neg hstar]
    have htop := toplevel_tokens t ht (42 :: rest) 0 (Or.inr hne)
    rw [Nat.zero_add] at htop
    rw [htop]
    simp only []
    rw [sublevel_star_rejected]

theorem C10_invalid_range_only_star_witness :
    (bytes "*/*" = bytes "*/*" ∧ false = false)
    ∧ MimeParse.parse (bytes "text" ++ 47 :: 42 :: []) false =
        .error (.InvalidToken ((bytes "text").length + 1) 42) :=
  ⟨C10_invalid_range_only_star.1 (bytes "*/*") false (by decide),
   C10_invalid_range_only_star.2 (bytes "text") [] (by decide) (by decide) (by decide)⟩
